import Mathlib

/-!
Verification of the keyed-list reconciliation engine of
`tachys/src/view/keyed/keyed_enumerate.rs`.

The development shallowly embeds the reconciler:

* child view states, input items and views stay abstract type parameters
  (`S`, `T`, `V`), with the builder `view_fn : Nat → T → IndexBinding × V`
  and `buildV : V → S` standing for `VF` and `Render::build`;
* the index signal `ArcWriteSignal<usize>` is embedded as an `IndexBinding`
  record whose `val` field is the signal's current value (`Set::set` writes
  it) and whose `id` field is the identity of the underlying signal, which
  `set` never changes;
* every host-tree call (`mount`, `unmount`, `insert_before_this_or_marker`)
  is recorded in an explicit trace of `HostOp` events instead of mutating a
  DOM; the end-of-list marker is the implicit reference of `HostOp.mount`;
* `Vec` indexing panics, `Option::unwrap` and `expect` are embedded as
  `Option`-valued functions: a `none` result is an aborted (panicked) pass;
* the diff module (`diff`, `unpack_moves`, `VecExt`, the edit-script types)
  is not among the sources of this repository snapshot, so those definitions
  are modelled from the specification and marked as such.
-/

set_option maxHeartbeats 1000000

/-- An index signal (`ArcWriteSignal<usize>`): `id` identifies the underlying
signal allocation and is never changed by a write, `val` is the value the
signal currently holds. -/
structure IndexBinding where
  id : Nat
  val : Nat
deriving DecidableEq, Repr

/-- The `Set::set` operation on an index signal: writes the value, keeping the
identity of the signal. -/
def IndexBinding.set (b : IndexBinding) (v : Nat) : IndexBinding :=
  { b with val := v }

/-- Modelled from the spec: `DiffOpRemove` of the diff module (missing from the
sources): an old position whose key disappeared. -/
structure DiffOpRemove where
  at_ : Nat
deriving DecidableEq, Repr

/-- Modelled from the spec: `DiffOpAddMode` of the diff module (missing from
the sources): `Normal` inserts before the next still-present sibling, `Append`
inserts at the end. -/
inductive DiffOpAddMode where
  | Normal
  | Append
deriving DecidableEq, Repr

/-- Modelled from the spec: `DiffOpAdd` of the diff module (missing from the
sources): a new position receiving a freshly built child. -/
structure DiffOpAdd where
  at_ : Nat
  mode : DiffOpAddMode
deriving DecidableEq, Repr

/-- Modelled from the spec: `DiffOpMove` of the diff module (missing from the
sources): a move command `{source index, destination index, physical}`;
`move_in_dom = false` means only the index binding needs updating. -/
structure DiffOpMove where
  from_ : Nat
  to_ : Nat
  move_in_dom : Bool
deriving DecidableEq, Repr

/-- Modelled from the spec: the edit script (`Diff`) produced by the Diff
Computer: a clear flag, removals, moves and additions. -/
structure Diff where
  removed : List DiffOpRemove
  moved : List DiffOpMove
  added : List DiffOpAdd
  clear : Bool
deriving DecidableEq, Repr

/-- A host-tree operation performed by the reconciler on the live tree.
`mount c` mounts `c` under the parent before the end-of-list marker;
`insertBefore ref c` is `ref.insert_before_this_or_marker(parent, c, marker)`;
`unmount c` removes `c`'s nodes from the tree. -/
inductive HostOp (S : Type) where
  | unmount (c : S)
  | mount (c : S)
  | insertBefore (ref : S) (c : S)
deriving DecidableEq, Repr

/-- Rust `v[i].take()` on a `Vec<Option<_>>`: returns the previous slot content
and the vector with a hole written at `i`; `none` is the out-of-bounds panic. -/
def vecTake (l : List (Option α)) (i : Nat) : Option (Option α × List (Option α)) :=
  match l[i]? with
  | some v => some (v, l.set i none)
  | none => none

/-- Rust `v[i] = a` on a `Vec`: writes the slot; `none` is the out-of-bounds
panic. -/
def vecWrite (l : List α) (i : Nat) (a : α) : Option (List α) :=
  if i < l.length then some (l.set i a) else none

/-- The host operations of the clear fast path: every present child is
unmounted in slot order (`Mountable for Option` makes unmounting a hole a
no-op). -/
def clearTrace (children : List (Option S)) : List (HostOp S) :=
  (children.filterMap id).map HostOp.unmount

/-- Step 2 of `apply_diff`: for each removal, drop the index binding at the
position, take the child out (panicking on a hole) and unmount it. -/
def removeStep : List DiffOpRemove → List (Option S) → List (Option IndexBinding) →
    List (HostOp S) → Option (List (Option S) × List (Option IndexBinding) × List (HostOp S))
  | [], children, indexItems, tr => some (children, indexItems, tr)
  | r :: rest, children, indexItems, tr => do
    let (_, indexItems') ← vecTake indexItems r.at_
    let (copt, children') ← vecTake children r.at_
    let c ← copt
    removeStep rest children' indexItems' (tr ++ [HostOp.unmount c])

/-- Step 3 of `apply_diff`: take the child and the index binding out of the
source slot of every move command, collecting them in the `moved_children` and
`moved_index_items` buffers (in command order). -/
def moveOutStep : List DiffOpMove → List (Option S) → List (Option IndexBinding) →
    Option (List (Option S) × List (Option IndexBinding) × List (Option S) × List (Option IndexBinding))
  | [], children, indexItems => some (children, indexItems, [], [])
  | m :: rest, children, indexItems => do
    let (c, children') ← vecTake children m.from_
    let (b, indexItems') ← vecTake indexItems m.from_
    let (ch, ii, bufC, bufI) ← moveOutStep rest children' indexItems'
    some (ch, ii, c :: bufC, b :: bufI)

/-- Modelled from the spec: `VecExt::get_next_closest_mounted_sibling` of the
diff module (missing from the sources): the first still-filled slot at or after
`startAt`. The outer `none` is the panic of slicing past the end of the
array; the inner option is Rust's `Option<&Option<T>>` result. -/
def get_next_closest_mounted_sibling (l : List (Option α)) (startAt : Nat) :
    Option (Option (Option α)) :=
  if startAt ≤ l.length then some ((l.drop startAt).find? (fun s => s.isSome)) else none

/-- Step 5, first loop of `apply_diff`: moves with `move_in_dom = false` place
the taken child into the destination slot and update the taken binding to the
destination index, performing no host-tree operation. The list pairs each move
command with its two buffer entries. -/
def moveInLogical : List (DiffOpMove × Option S × Option IndexBinding) →
    List (Option S) → List (Option IndexBinding) → List (HostOp S) →
    Option (List (Option S) × List (Option IndexBinding) × List (HostOp S))
  | [], children, indexItems, tr => some (children, indexItems, tr)
  | (m, c, b) :: rest, children, indexItems, tr =>
    if m.move_in_dom then moveInLogical rest children indexItems tr
    else do
      let children' ← vecWrite children m.to_ c
      let indexItems' ← vecWrite indexItems m.to_ (b.map (fun x => x.set m.to_))
      moveInLogical rest children' indexItems' tr

/-- Step 5, second loop of `apply_diff`: moves with `move_in_dom = true` unwrap
the buffered child (panicking on a hole), relocate it before the next closest
mounted sibling or the marker, then fill the destination slot and update the
binding. -/
def moveInPhysical : List (DiffOpMove × Option S × Option IndexBinding) →
    List (Option S) → List (Option IndexBinding) → List (HostOp S) →
    Option (List (Option S) × List (Option IndexBinding) × List (HostOp S))
  | [], children, indexItems, tr => some (children, indexItems, tr)
  | (m, c, b) :: rest, children, indexItems, tr =>
    if m.move_in_dom then do
      let eachItem ← c
      let sib ← get_next_closest_mounted_sibling children m.to_
      let ev := match sib with
        | some (some state) => HostOp.insertBefore state eachItem
        | _ => HostOp.mount eachItem
      let children' ← vecWrite children m.to_ (some eachItem)
      let indexItems' ← vecWrite indexItems m.to_ (b.map (fun x => x.set m.to_))
      moveInPhysical rest children' indexItems' (tr ++ [ev])
    else moveInPhysical rest children indexItems tr

/-- Step 6 of `apply_diff`: each addition takes its input item (panicking if
absent), builds the view returned by `view_fn` at the destination index,
mounts it according to its mode, fills the slot and stores the returned
binding. -/
def addStep (viewFn : Nat → T → IndexBinding × V) (buildV : V → S) :
    List DiffOpAdd → List (Option S) → List (Option T) → List (Option IndexBinding) →
    List (HostOp S) →
    Option (List (Option S) × List (Option T) × List (Option IndexBinding) × List (HostOp S))
  | [], children, items, indexItems, tr => some (children, items, indexItems, tr)
  | a :: rest, children, items, indexItems, tr => do
    let (topt, items') ← vecTake items a.at_
    let t ← topt
    let pair := viewFn a.at_ t
    let item := buildV pair.2
    let ev ← match a.mode with
      | DiffOpAddMode.Normal => do
        let sib ← get_next_closest_mounted_sibling children a.at_
        pure (match sib with
          | some (some state) => HostOp.insertBefore state item
          | _ => HostOp.mount item)
      | DiffOpAddMode.Append => pure (HostOp.mount item)
    let children' ← vecWrite children a.at_ (some item)
    let indexItems' ← vecWrite indexItems a.at_ (some pair.1)
    addStep viewFn buildV rest children' items' indexItems' (tr ++ [ev])

/-- The outcome of a completed reconciliation pass: the two slot arrays and the
trace of host-tree operations performed. -/
structure ApplyResult (S : Type) where
  children : List (Option S)
  indexItems : List (Option IndexBinding)
  trace : List (HostOp S)
deriving DecidableEq, Repr

/-- Steps 1 to 4 of `apply_diff` (clear, removals, move-out, resize): the
result holds the two resized slot arrays, the two move-out buffers and the
trace so far. -/
def stage14 (d : Diff) (moveCmds : List DiffOpMove)
    (children : List (Option S)) (indexItems : List (Option IndexBinding)) :
    Option (List (Option S) × List (Option IndexBinding) × List (Option S) ×
      List (Option IndexBinding) × List (HostOp S)) :=
  let children0 := if d.clear then [] else children
  let indexItems0 := if d.clear then [] else indexItems
  let trace0 := if d.clear then clearTrace children else []
  do
  let (ch2, ii2, tr2) ← removeStep d.removed children0 indexItems0 trace0
  let (ch3, ii3, bufC, bufI) ← moveOutStep moveCmds ch2 ii2
  some (ch3 ++ List.replicate d.added.length none,
        ii3 ++ List.replicate d.added.length none, bufC, bufI, tr2)

/-- Steps 1 to 6 of `apply_diff` (clear, removals, move-out, resize, move-in,
additions), given the unpacked move and add command lists; the result is the
state before the final hole-pruning drain. -/
def applyDiffSteps (d : Diff) (moveCmds : List DiffOpMove) (addCmds : List DiffOpAdd)
    (viewFn : Nat → T → IndexBinding × V) (buildV : V → S)
    (children : List (Option S)) (items : List (Option T))
    (indexItems : List (Option IndexBinding)) : Option (ApplyResult S) := do
  let (ch4, ii4, bufC, bufI, tr2) ← stage14 d moveCmds children indexItems
  let (ch5, ii5, tr5) ← moveInLogical (moveCmds.zip (bufC.zip bufI)) ch4 ii4 tr2
  let (ch6, ii6, tr6) ← moveInPhysical (moveCmds.zip (bufC.zip bufI)) ch5 ii5 tr5
  let (ch7, _, ii7, tr7) ← addStep viewFn buildV addCmds ch6 items ii6 tr6
  some ⟨ch7, ii7, tr7⟩

/-- Step 7 of `apply_diff`: `drain_filter(|c| c.is_none())` compacts an array
by dropping its holes. -/
def pruneHoles (l : List (Option α)) : List (Option α) :=
  l.filter (fun c => c.isSome)

/-- The body of `apply_diff`, given the unpacked move and add command lists:
the clear fast path returns immediately when there are no additions; otherwise
steps 2 to 6 run and both arrays are pruned. -/
def applyDiffCmds (d : Diff) (moveCmds : List DiffOpMove) (addCmds : List DiffOpAdd)
    (viewFn : Nat → T → IndexBinding × V) (buildV : V → S)
    (children : List (Option S)) (items : List (Option T))
    (indexItems : List (Option IndexBinding)) : Option (ApplyResult S) :=
  if d.clear && d.added.isEmpty then some ⟨[], [], clearTrace children⟩
  else do
    let st ← applyDiffSteps d moveCmds addCmds viewFn buildV children items indexItems
    some ⟨pruneHoles st.children, pruneHoles st.indexItems, st.trace⟩

/-- Modelled from the spec: helper of the Move Unpacker. `lisBestLen acc x` is
the longest increasing chain length among the `(value, length)` pairs of `acc`
that `x` can extend. -/
def lisBestLen (acc : List (Nat × Nat)) (x : Nat) : Nat :=
  acc.foldl (fun b p => if p.1 < x && b < p.2 then p.2 else b) 0

/-- Modelled from the spec: for each position of `l`, the length of the longest
increasing subsequence of `l` ending at that position. -/
def lisLens (l : List Nat) : List Nat :=
  (l.foldl (fun acc x => acc ++ [(x, lisBestLen acc x + 1)]) []).map (fun p => p.2)

/-- Modelled from the spec: walks `(index, value, chain length)` triples from
the right, reconstructing one maximal increasing subsequence. -/
def lisPick : List (Nat × Nat × Nat) → Nat → Option Nat → List Nat
  | [], _, _ => []
  | (i, v, len) :: rest, need, bound =>
    if len = need && (match bound with | none => true | some b => v < b) then
      i :: lisPick rest (need - 1) (some v)
    else lisPick rest need bound

/-- Modelled from the spec: the positions of one maximal increasing subsequence
of `l`. -/
def lisIndices (l : List Nat) : List Nat :=
  let lens := lisLens l
  let maxLen := lens.foldl Nat.max 0
  let trips := (l.enum.zip lens).map (fun p => (p.1.1, p.1.2, p.2))
  lisPick trips.reverse maxLen none

/-- Modelled from the spec: `unpack_moves` of the diff module (missing from the
sources): a maximal subsequence of the moved set whose destination order is
already consistent becomes logical moves (`move_in_dom := false`), the rest
become physical moves; add commands are carried through unchanged. -/
def unpack_moves (d : Diff) : List DiffOpMove × List DiffOpAdd :=
  let keep := lisIndices (d.moved.map (fun m => m.to_))
  ( d.moved.enum.map (fun p => { p.2 with move_in_dom := !(keep.contains p.1) })
  , d.added )

/-- The function `apply_diff` of `keyed_enumerate.rs`: unpacks the edit script
into move and add commands and executes steps 1 to 7. -/
def apply_diff (d : Diff) (viewFn : Nat → T → IndexBinding × V) (buildV : V → S)
    (children : List (Option S)) (items : List (Option T))
    (indexItems : List (Option IndexBinding)) : Option (ApplyResult S) :=
  applyDiffCmds d (unpack_moves d).1 (unpack_moves d).2 viewFn buildV children items
    indexItems

/-- Modelled from the spec: position lookup in an insertion-ordered key set. -/
def keyIndexOf [DecidableEq K] (l : List K) (k : K) : Option Nat :=
  l.findIdx? (fun x => decide (x = k))

/-- Modelled from the spec: the Diff Computer (`diff` of the diff module,
missing from the sources). Empty new sequence: every old item removed,
`clear = true`. Empty old sequence: every new item added with `Append` mode.
Disjoint key sets: `clear = true`, all old removed, all new appended.
Otherwise: removals for old keys that disappeared, a move for every shared key
whose position changed, `Normal`-mode additions for new keys. -/
def diff [DecidableEq K] (old new : List K) : Diff :=
  if old.isEmpty && new.isEmpty then ⟨[], [], [], false⟩
  else if new.isEmpty then
    ⟨old.enum.map (fun p => ⟨p.1⟩), [], [], true⟩
  else if old.isEmpty then
    ⟨[], [], new.enum.map (fun p => ⟨p.1, DiffOpAddMode.Append⟩), false⟩
  else if old.all (fun k => decide (k ∉ new)) then
    ⟨old.enum.map (fun p => ⟨p.1⟩), [],
     new.enum.map (fun p => ⟨p.1, DiffOpAddMode.Append⟩), true⟩
  else
    ⟨ (old.enum.filter (fun p => decide (p.2 ∉ new))).map (fun p => ⟨p.1⟩)
    , old.enum.filterMap (fun p =>
        match keyIndexOf new p.2 with
        | some j => if j = p.1 then none else some ⟨p.1, j, true⟩
        | none => none)
    , (new.enum.filter (fun p => decide (p.2 ∉ old))).map
        (fun p => ⟨p.1, DiffOpAddMode.Normal⟩)
    , false ⟩

/-- Retained state `KeyedEnumerateState`: the parent element (`none` until the
first mount), the key sequence, and the two parallel slot arrays. The
placeholder marker carries no data in this embedding. -/
structure KeyedEnumerateState (K S E : Type) where
  parent : Option E
  hashedItems : List K
  renderedItems : List (Option S)
  indexItems : List (Option IndexBinding)
deriving DecidableEq, Repr

/-- One `FxIndexSet::insert`: an insertion-ordered set insert, which leaves the
set unchanged (keeping the original position) when the key is already
present. -/
def indexSetInsert [DecidableEq K] (s : List K) (k : K) : List K :=
  if k ∈ s then s else s ++ [k]

/-- The key-collection loop shared by `build` and `rebuild`: every item's key
is inserted into an insertion-ordered set. -/
def hashedKeys [DecidableEq K] (keyFn : T → K) (items : List T) : List K :=
  items.foldl (fun s t => indexSetInsert s (keyFn t)) []

/-- `Render::build` for the keyed list: collects the key set and, for each
item in input order, builds its view at its index and stores the rendered
state and the returned index binding; the parent is `none`. -/
def build [DecidableEq K] (keyFn : T → K) (viewFn : Nat → T → IndexBinding × V)
    (buildV : V → S) (items : List T) : KeyedEnumerateState K S E :=
  { parent := none
    hashedItems := hashedKeys keyFn items
    renderedItems := items.enum.map (fun p => some (buildV (viewFn p.1 p.2).2))
    indexItems := items.enum.map (fun p => some (viewFn p.1 p.2).1) }

/-- `Mountable::mount` for the keyed state: records the parent and mounts every
present child in slot order (the marker mount is not traced). -/
def mount (st : KeyedEnumerateState K S E) (parent : E) :
    KeyedEnumerateState K S E × List (HostOp S) :=
  ({ st with parent := some parent }, (st.renderedItems.filterMap id).map HostOp.mount)

/-- `Render::rebuild` for the keyed list: collects the new key sequence and the
new items, panics via `expect` when the state has never been mounted, diffs,
applies the script and stores the new key sequence. -/
def rebuild [DecidableEq K] (keyFn : T → K) (viewFn : Nat → T → IndexBinding × V)
    (buildV : V → S) (newItems : List T) (st : KeyedEnumerateState K S E) :
    Option (KeyedEnumerateState K S E × List (HostOp S)) := do
  let _parent ← st.parent
  let newHashed := hashedKeys keyFn newItems
  let d := diff st.hashedItems newHashed
  let res ← apply_diff d viewFn buildV st.renderedItems (newItems.map some) st.indexItems
  some ({ st with hashedItems := newHashed,
                  renderedItems := res.children,
                  indexItems := res.indexItems }, res.trace)

/-- Dedup keeping the first occurrence of every key, in first-occurrence
order. -/
def dedupKeepFirst [DecidableEq K] : List K → List K
  | [] => []
  | k :: rest => k :: dedupKeepFirst (rest.filter (fun x => decide (x ≠ k)))
termination_by l => l.length
decreasing_by
  simp only [List.length_cons]
  exact Nat.lt_succ_of_le (List.length_filter_le _ _)

/-- Follows the spec's words for the claimed duplicate-key behavior: the later
occurrence wins positionally, i.e. every key sits at the position of its last
occurrence (dedup keeping last occurrences). -/
def specLastWinsKeys [DecidableEq K] : List K → List K
  | [] => []
  | k :: rest => if k ∈ rest then specLastWinsKeys rest else k :: specLastWinsKeys rest

/-- A slot of a slot array that exists and holds a value (not a hole). -/
def slotFilled (l : List (Option α)) (p : Nat) : Prop :=
  ∃ x, l[p]? = some (some x)

instance (l : List (Option α)) (p : Nat) : Decidable (slotFilled l p) :=
  match h : l[p]? with
  | some (some x) => isTrue ⟨x, h⟩
  | some none => isFalse (fun hx => by
      obtain ⟨x, hx⟩ := hx
      rw [h] at hx
      simp at hx)
  | none => isFalse (fun hx => by
      obtain ⟨x, hx⟩ := hx
      rw [h] at hx
      simp at hx)

/-- A binding slot that exists and holds a binding whose current value is `v`. -/
def slotBoundVal (l : List (Option IndexBinding)) (p v : Nat) : Prop :=
  ∃ b, l[p]? = some (some b) ∧ b.val = v

instance (l : List (Option IndexBinding)) (p v : Nat) : Decidable (slotBoundVal l p v) :=
  match h : l[p]? with
  | some (some b) =>
    if hv : b.val = v then isTrue ⟨b, h, hv⟩
    else isFalse (fun hx => by
      obtain ⟨b2, hb2, hv2⟩ := hx
      rw [h] at hb2
      obtain rfl : b = b2 := by simpa using hb2
      exact hv hv2)
  | some none => isFalse (fun hx => by
      obtain ⟨b2, hb2, _⟩ := hx
      rw [h] at hb2
      simp at hb2)
  | none => isFalse (fun hx => by
      obtain ⟨b2, hb2, _⟩ := hx
      rw [h] at hb2
      simp at hb2)

theorem lt_length_of_getElem?_some {l : List α} {i : Nat} {a : α}
    (h : l[i]? = some a) : i < l.length := by
  by_contra hn
  push_neg at hn
  rw [List.getElem?_eq_none hn] at h
  simp at h

theorem vecTake_eq_some {l : List (Option α)} {i : Nat} {v : Option α}
    {l' : List (Option α)} (h : vecTake l i = some (v, l')) :
    l[i]? = some v ∧ l' = l.set i none := by
  cases hl : l[i]? with
  | none => simp [vecTake, hl] at h
  | some w =>
    simp only [vecTake, hl, Option.some.injEq, Prod.mk.injEq] at h
    exact ⟨congrArg some h.1, h.2.symm⟩


theorem vecWrite_eq_some {l : List α} {i : Nat} {a : α} {l' : List α}
    (h : vecWrite l i a = some l') : i < l.length ∧ l' = l.set i a := by
  unfold vecWrite at h
  split at h
  · exact ⟨by assumption, (Option.some.inj h).symm⟩
  · simp at h

theorem removeStep_spec : ∀ (R : List DiffOpRemove) (ch : List (Option S))
    (ii : List (Option IndexBinding)) (tr : List (HostOp S)) (ch' : List (Option S))
    (ii' : List (Option IndexBinding)) (tr' : List (HostOp S)),
    removeStep R ch ii tr = some (ch', ii', tr') →
    ch'.length = ch.length ∧ ii'.length = ii.length ∧
    (∀ p, p ∉ R.map DiffOpRemove.at_ → ch'[p]? = ch[p]? ∧ ii'[p]? = ii[p]?) ∧
    (∀ p, p ∈ R.map DiffOpRemove.at_ → ch'[p]? = some none ∧ ii'[p]? = some none)
  | [], ch, ii, tr, ch', ii', tr', h => by
    simp only [removeStep, Option.some.injEq, Prod.mk.injEq] at h
    obtain ⟨rfl, rfl, rfl⟩ := h
    exact ⟨rfl, rfl, fun p _ => ⟨rfl, rfl⟩, fun p hp => absurd hp (by simp)⟩
  | r :: rest, ch, ii, tr, ch', ii', tr', h => by
    simp only [removeStep] at h
    obtain ⟨⟨b0, ii1⟩, hT1, h⟩ := Option.bind_eq_some.mp h
    obtain ⟨⟨copt, ch1⟩, hT2, h⟩ := Option.bind_eq_some.mp h
    obtain ⟨c, rfl, h⟩ := Option.bind_eq_some.mp h
    obtain ⟨hii_get, rfl⟩ := vecTake_eq_some hT1
    obtain ⟨hch_get, rfl⟩ := vecTake_eq_some hT2
    obtain ⟨hl1, hl2, hframe, hmem⟩ := removeStep_spec rest _ _ _ _ _ _ h
    have hch_lt : r.at_ < ch.length := lt_length_of_getElem?_some hch_get
    have hii_lt : r.at_ < ii.length := lt_length_of_getElem?_some hii_get
    refine ⟨by simpa using hl1, by simpa using hl2, ?_, ?_⟩
    · intro p hp
      simp only [List.map_cons, List.mem_cons, not_or] at hp
      obtain ⟨hp1, hp2⟩ := hp
      obtain ⟨hf1, hf2⟩ := hframe p hp2
      rw [hf1, hf2, List.getElem?_set_ne (fun he => hp1 (he.symm)),
        List.getElem?_set_ne (fun he => hp1 (he.symm))]
      exact ⟨rfl, rfl⟩
    · intro p hp
      by_cases hrest : p ∈ rest.map DiffOpRemove.at_
      · exact hmem p hrest
      · simp only [List.map_cons, List.mem_cons] at hp
        obtain rfl | hp := hp
        · obtain ⟨hf1, hf2⟩ := hframe _ hrest
          rw [hf1, hf2, List.getElem?_set_self hch_lt, List.getElem?_set_self hii_lt]
          exact ⟨rfl, rfl⟩
        · exact absurd hp hrest

theorem moveOutStep_spec : ∀ (M : List DiffOpMove) (ch : List (Option S))
    (ii : List (Option IndexBinding)) (ch' : List (Option S))
    (ii' : List (Option IndexBinding)) (bufC : List (Option S))
    (bufI : List (Option IndexBinding)),
    moveOutStep M ch ii = some (ch', ii', bufC, bufI) →
    ch'.length = ch.length ∧ ii'.length = ii.length ∧
    bufC.length = M.length ∧ bufI.length = M.length ∧
    (∀ p, p ∉ M.map DiffOpMove.from_ → ch'[p]? = ch[p]? ∧ ii'[p]? = ii[p]?) ∧
    (∀ m, m ∈ M → ch'[m.from_]? = some none ∧ ii'[m.from_]? = some none) ∧
    (∀ i m, M[i]? = some m →
      if m.from_ ∈ (M.take i).map DiffOpMove.from_ then
        bufC[i]? = some none ∧ bufI[i]? = some none
      else bufC[i]? = ch[m.from_]? ∧ bufI[i]? = ii[m.from_]?)
  | [], ch, ii, ch', ii', bufC, bufI, h => by
    simp only [moveOutStep, Option.some.injEq, Prod.mk.injEq] at h
    obtain ⟨rfl, rfl, rfl, rfl⟩ := h
    refine ⟨rfl, rfl, rfl, rfl, fun p _ => ⟨rfl, rfl⟩, fun m hm => absurd hm (by simp),
      fun i m hm => ?_⟩
    simp at hm
  | m0 :: rest, ch, ii, ch', ii', bufC, bufI, h => by
    simp only [moveOutStep] at h
    obtain ⟨⟨c0, ch1⟩, hT1, h⟩ := Option.bind_eq_some.mp h
    obtain ⟨⟨b0, ii1⟩, hT2, h⟩ := Option.bind_eq_some.mp h
    obtain ⟨⟨ch2, ii2, bufC2, bufI2⟩, hrec, h⟩ := Option.bind_eq_some.mp h
    simp only [Option.some.injEq, Prod.mk.injEq] at h
    obtain ⟨rfl, rfl, rfl, rfl⟩ := h
    obtain ⟨hch_get, rfl⟩ := vecTake_eq_some hT1
    obtain ⟨hii_get, rfl⟩ := vecTake_eq_some hT2
    obtain ⟨hl1, hl2, hl3, hl4, hframe, hsrc, hbuf⟩ :=
      moveOutStep_spec rest _ _ _ _ _ _ hrec
    dsimp only at hl1 hl2 hl3 hl4 hframe hsrc hbuf
    have hch_lt : m0.from_ < ch.length := lt_length_of_getElem?_some hch_get
    have hii_lt : m0.from_ < ii.length := lt_length_of_getElem?_some hii_get
    refine ⟨by simpa using hl1, by simpa using hl2, by simpa using hl3,
      by simpa using hl4, ?_, ?_, ?_⟩
    · intro p hp
      simp only [List.map_cons, List.mem_cons, not_or] at hp
      obtain ⟨hp1, hp2⟩ := hp
      obtain ⟨hf1, hf2⟩ := hframe p hp2
      rw [hf1, hf2, List.getElem?_set_ne (fun he => hp1 he.symm),
        List.getElem?_set_ne (fun he => hp1 he.symm)]
      exact ⟨rfl, rfl⟩
    · intro m hm
      by_cases hrest : m.from_ ∈ rest.map DiffOpMove.from_
      · obtain ⟨m', hm', hfm⟩ := List.mem_map.mp hrest
        have := hsrc m' hm'
        rw [hfm] at this
        exact this
      · rcases List.mem_cons.mp hm with rfl | hm
        · obtain ⟨hf1, hf2⟩ := hframe _ hrest
          rw [hf1, hf2, List.getElem?_set_self hch_lt, List.getElem?_set_self hii_lt]
          exact ⟨rfl, rfl⟩
        · exact absurd (List.mem_map.mpr ⟨m, hm, rfl⟩) hrest
    · intro i m hm
      cases i with
      | zero =>
        simp only [List.getElem?_cons_zero, Option.some.injEq] at hm
        subst hm
        simp only [List.take_zero, List.map_nil, List.not_mem_nil, if_false]
        exact ⟨by simpa using hch_get.symm, by simpa using hii_get.symm⟩
      | succ i =>
        simp only [List.getElem?_cons_succ] at hm
        have hbi := hbuf i m hm
        simp only [List.take_succ_cons, List.map_cons, List.mem_cons]
        by_cases hfm : m.from_ = m0.from_
        · rw [if_pos (Or.inl hfm)]
          by_cases hrt : m.from_ ∈ (rest.take i).map DiffOpMove.from_
          · rw [if_pos hrt] at hbi
            exact ⟨by simpa using hbi.1, by simpa using hbi.2⟩
          · rw [if_neg hrt] at hbi
            constructor
            · rw [List.getElem?_cons_succ, hbi.1, hfm, List.getElem?_set_self hch_lt]
            · rw [List.getElem?_cons_succ, hbi.2, hfm, List.getElem?_set_self hii_lt]
        · by_cases hrt : m.from_ ∈ (rest.take i).map DiffOpMove.from_
          · rw [if_pos (Or.inr hrt)]
            rw [if_pos hrt] at hbi
            exact ⟨by simpa using hbi.1, by simpa using hbi.2⟩
          · rw [if_neg (fun hc => hc.elim hfm hrt)]
            rw [if_neg hrt] at hbi
            constructor
            · rw [List.getElem?_cons_succ, hbi.1, List.getElem?_set_ne (fun he => hfm he.symm)]
            · rw [List.getElem?_cons_succ, hbi.2, List.getElem?_set_ne (fun he => hfm he.symm)]

theorem filtered_tos_subset (pred : (DiffOpMove × Option S × Option IndexBinding) → Bool)
    (Z : List (DiffOpMove × Option S × Option IndexBinding)) (p : Nat) :
    p ∈ (Z.filter pred).map (fun z => z.1.to_) → p ∈ Z.map (fun z => z.1.to_) := by
  intro hp
  obtain ⟨z, hz, rfl⟩ := List.mem_map.mp hp
  exact List.mem_map.mpr ⟨z, List.mem_of_mem_filter hz, rfl⟩

theorem moveInLogical_spec : ∀ (Z : List (DiffOpMove × Option S × Option IndexBinding))
    (ch : List (Option S)) (ii : List (Option IndexBinding)) (tr : List (HostOp S))
    (ch' : List (Option S)) (ii' : List (Option IndexBinding)) (tr' : List (HostOp S)),
    moveInLogical Z ch ii tr = some (ch', ii', tr') →
    ch'.length = ch.length ∧ ii'.length = ii.length ∧ tr' = tr ∧
    (∀ p, p ∉ (Z.filter (fun z => !z.1.move_in_dom)).map (fun z => z.1.to_) →
      ch'[p]? = ch[p]? ∧ ii'[p]? = ii[p]?) ∧
    ((Z.map (fun z => z.1.to_)).Nodup →
      ∀ z ∈ Z, z.1.move_in_dom = false →
        ch'[z.1.to_]? = some z.2.1 ∧
        ii'[z.1.to_]? = some (z.2.2.map (fun b => b.set z.1.to_)))
  | [], ch, ii, tr, ch', ii', tr', h => by
    simp only [moveInLogical, Option.some.injEq, Prod.mk.injEq] at h
    obtain ⟨rfl, rfl, rfl⟩ := h
    exact ⟨rfl, rfl, rfl, fun p _ => ⟨rfl, rfl⟩, fun _ z hz => absurd hz (by simp)⟩
  | (m, c, b) :: rest, ch, ii, tr, ch', ii', tr', h => by
    simp only [moveInLogical] at h
    by_cases hd : m.move_in_dom
    · rw [if_pos hd] at h
      obtain ⟨hl1, hl2, hl3, hframe, hwr⟩ := moveInLogical_spec rest _ _ _ _ _ _ h
      refine ⟨hl1, hl2, hl3, ?_, ?_⟩
      · intro p hp
        refine hframe p (fun hmem => hp ?_)
        simp only [List.filter_cons, hd, Bool.not_true, if_false]
        exact hmem
      · intro hnd z hz hzd
        simp only [List.map_cons, List.nodup_cons] at hnd
        rcases List.mem_cons.mp hz with rfl | hz
        · rw [hzd] at hd; cases hd
        · exact hwr hnd.2 z hz hzd
    · rw [if_neg hd] at h
      obtain ⟨ch1, hW1, h⟩ := Option.bind_eq_some.mp h
      obtain ⟨ii1, hW2, h⟩ := Option.bind_eq_some.mp h
      obtain ⟨hlt1, rfl⟩ := vecWrite_eq_some hW1
      obtain ⟨hlt2, rfl⟩ := vecWrite_eq_some hW2
      obtain ⟨hl1, hl2, hl3, hframe, hwr⟩ := moveInLogical_spec rest _ _ _ _ _ _ h
      have hdf : m.move_in_dom = false := by
        cases hmd : m.move_in_dom
        · rfl
        · exact absurd hmd hd
      refine ⟨by simpa using hl1, by simpa using hl2, hl3, ?_, ?_⟩
      · intro p hp
        simp only [List.filter_cons, hdf, Bool.not_false, if_true, List.map_cons,
          List.mem_cons, not_or] at hp
        obtain ⟨hf1, hf2⟩ := hframe p hp.2
        rw [hf1, hf2, List.getElem?_set_ne (fun he => hp.1 he.symm),
          List.getElem?_set_ne (fun he => hp.1 he.symm)]
        exact ⟨rfl, rfl⟩
      · intro hnd z hz hzd
        simp only [List.map_cons, List.nodup_cons] at hnd
        rcases List.mem_cons.mp hz with rfl | hz
        · have hto : m.to_ ∉ (rest.filter (fun z => !z.1.move_in_dom)).map
              (fun z => z.1.to_) :=
            fun hmem => hnd.1 (filtered_tos_subset _ rest m.to_ hmem)
          have hfr := hframe m.to_ hto
          constructor
          · rw [hfr.1, List.getElem?_set_self hlt1]
          · rw [hfr.2, List.getElem?_set_self hlt2]
        · exact hwr hnd.2 z hz hzd

theorem moveInPhysical_spec : ∀ (Z : List (DiffOpMove × Option S × Option IndexBinding))
    (ch : List (Option S)) (ii : List (Option IndexBinding)) (tr : List (HostOp S))
    (ch' : List (Option S)) (ii' : List (Option IndexBinding)) (tr' : List (HostOp S)),
    moveInPhysical Z ch ii tr = some (ch', ii', tr') →
    ch'.length = ch.length ∧ ii'.length = ii.length ∧
    (∀ p, p ∉ (Z.filter (fun z => z.1.move_in_dom)).map (fun z => z.1.to_) →
      ch'[p]? = ch[p]? ∧ ii'[p]? = ii[p]?) ∧
    ((Z.map (fun z => z.1.to_)).Nodup →
      ∀ z ∈ Z, z.1.move_in_dom = true →
        ∃ c, z.2.1 = some c ∧ ch'[z.1.to_]? = some (some c) ∧
          ii'[z.1.to_]? = some (z.2.2.map (fun x => x.set z.1.to_)))
  | [], ch, ii, tr, ch', ii', tr', h => by
    simp only [moveInPhysical, Option.some.injEq, Prod.mk.injEq] at h
    obtain ⟨rfl, rfl, rfl⟩ := h
    exact ⟨rfl, rfl, fun p _ => ⟨rfl, rfl⟩, fun _ z hz => absurd hz (by simp)⟩
  | (m, c, b) :: rest, ch, ii, tr, ch', ii', tr', h => by
    simp only [moveInPhysical] at h
    by_cases hd : m.move_in_dom
    · rw [if_pos hd] at h
      obtain ⟨eachItem, hc, h⟩ := Option.bind_eq_some.mp h
      obtain ⟨sib, hsib, h⟩ := Option.bind_eq_some.mp h
      obtain ⟨ch1, hW1, h⟩ := Option.bind_eq_some.mp h
      obtain ⟨ii1, hW2, h⟩ := Option.bind_eq_some.mp h
      obtain ⟨hlt1, rfl⟩ := vecWrite_eq_some hW1
      obtain ⟨hlt2, rfl⟩ := vecWrite_eq_some hW2
      obtain ⟨hl1, hl2, hframe, hwr⟩ := moveInPhysical_spec rest _ _ _ _ _ _ h
      refine ⟨by simpa using hl1, by simpa using hl2, ?_, ?_⟩
      · intro p hp
        simp only [List.filter_cons, hd, if_true, List.map_cons, List.mem_cons,
          not_or] at hp
        obtain ⟨hf1, hf2⟩ := hframe p hp.2
        rw [hf1, hf2, List.getElem?_set_ne (fun he => hp.1 he.symm),
          List.getElem?_set_ne (fun he => hp.1 he.symm)]
        exact ⟨rfl, rfl⟩
      · intro hnd z hz hzd
        simp only [List.map_cons, List.nodup_cons] at hnd
        rcases List.mem_cons.mp hz with rfl | hz
        · refine ⟨eachItem, hc, ?_, ?_⟩
          · have hto : m.to_ ∉ (rest.filter (fun z => z.1.move_in_dom)).map
                (fun z => z.1.to_) :=
              fun hmem => hnd.1 (filtered_tos_subset _ rest m.to_ hmem)
            have hfr := hframe m.to_ hto
            rw [hfr.1, List.getElem?_set_self hlt1]
          · have hto : m.to_ ∉ (rest.filter (fun z => z.1.move_in_dom)).map
                (fun z => z.1.to_) :=
              fun hmem => hnd.1 (filtered_tos_subset _ rest m.to_ hmem)
            have hfr := hframe m.to_ hto
            rw [hfr.2, List.getElem?_set_self hlt2]
        · exact hwr hnd.2 z hz hzd
    · rw [if_neg hd] at h
      obtain ⟨hl1, hl2, hframe, hwr⟩ := moveInPhysical_spec rest _ _ _ _ _ _ h
      have hdf : m.move_in_dom = false := by
        cases hmd : m.move_in_dom
        · rfl
        · exact absurd hmd hd
      refine ⟨hl1, hl2, ?_, ?_⟩
      · intro p hp
        refine hframe p (fun hmem => hp ?_)
        simp only [List.filter_cons, hdf, if_false]
        exact hmem
      · intro hnd z hz hzd
        simp only [List.map_cons, List.nodup_cons] at hnd
        rcases List.mem_cons.mp hz with rfl | hz
        · rw [hzd] at hdf; cases hdf
        · exact hwr hnd.2 z hz hzd

theorem moveInPhysical_all_logical : ∀ (Z : List (DiffOpMove × Option S × Option IndexBinding))
    (ch : List (Option S)) (ii : List (Option IndexBinding)) (tr : List (HostOp S)),
    (∀ z ∈ Z, z.1.move_in_dom = false) →
    moveInPhysical Z ch ii tr = some (ch, ii, tr)
  | [], ch, ii, tr, _ => rfl
  | (m, c, b) :: rest, ch, ii, tr, hall => by
    have hm : m.move_in_dom = false := hall (m, c, b) (List.mem_cons_self _ _)
    simp only [moveInPhysical, hm, if_false]
    exact moveInPhysical_all_logical rest ch ii tr (fun z hz => hall z (List.mem_cons_of_mem _ hz))

theorem addStep_spec (viewFn : Nat → T → IndexBinding × V) (buildV : V → S) :
    ∀ (A : List DiffOpAdd) (ch : List (Option S)) (items : List (Option T))
    (ii : List (Option IndexBinding)) (tr : List (HostOp S)) (ch' : List (Option S))
    (items' : List (Option T)) (ii' : List (Option IndexBinding)) (tr' : List (HostOp S)),
    addStep viewFn buildV A ch items ii tr = some (ch', items', ii', tr') →
    ch'.length = ch.length ∧ ii'.length = ii.length ∧
    (∀ p, p ∉ A.map DiffOpAdd.at_ → ch'[p]? = ch[p]? ∧ ii'[p]? = ii[p]?) ∧
    ((A.map DiffOpAdd.at_).Nodup →
      ∀ a ∈ A, ∃ t, items[a.at_]? = some (some t) ∧
        ch'[a.at_]? = some (some (buildV (viewFn a.at_ t).2)) ∧
        ii'[a.at_]? = some (some (viewFn a.at_ t).1))
  | [], ch, items, ii, tr, ch', items', ii', tr', h => by
    simp only [addStep, Option.some.injEq, Prod.mk.injEq] at h
    obtain ⟨rfl, rfl, rfl, rfl⟩ := h
    exact ⟨rfl, rfl, fun p _ => ⟨rfl, rfl⟩, fun _ a ha => absurd ha (by simp)⟩
  | a0 :: rest, ch, items, ii, tr, ch', items', ii', tr', h => by
    obtain ⟨at0, mode0⟩ := a0
    simp only [addStep] at h
    obtain ⟨⟨topt, items1⟩, hT1, h⟩ := Option.bind_eq_some.mp h
    obtain ⟨t, rfl, h⟩ := Option.bind_eq_some.mp h
    obtain ⟨hit_get, rfl⟩ := vecTake_eq_some hT1
    have hnext : ∃ (ev : HostOp S) (ch1 : List (Option S)) (ii1 : List (Option IndexBinding)),
        vecWrite ch at0 (some (buildV (viewFn at0 t).2)) = some ch1 ∧
        vecWrite ii at0 (some (viewFn at0 t).1) = some ii1 ∧
        addStep viewFn buildV rest ch1 (items.set at0 none) ii1 (tr ++ [ev]) =
          some (ch', items', ii', tr') := by
      cases mode0 with
      | Normal =>
        obtain ⟨sib, hsib, h⟩ := Option.bind_eq_some.mp h
        obtain ⟨ev, hev, h⟩ := Option.bind_eq_some.mp h
        obtain ⟨ch1, hW1, h⟩ := Option.bind_eq_some.mp h
        obtain ⟨ii1, hW2, h⟩ := Option.bind_eq_some.mp h
        exact ⟨ev, ch1, ii1, hW1, hW2, h⟩
      | Append =>
        obtain ⟨ev, hev, h⟩ := Option.bind_eq_some.mp h
        obtain ⟨ch1, hW1, h⟩ := Option.bind_eq_some.mp h
        obtain ⟨ii1, hW2, h⟩ := Option.bind_eq_some.mp h
        exact ⟨ev, ch1, ii1, hW1, hW2, h⟩
    obtain ⟨ev, ch1, ii1, hW1, hW2, h⟩ := hnext
    obtain ⟨hlt1, rfl⟩ := vecWrite_eq_some hW1
    obtain ⟨hlt2, rfl⟩ := vecWrite_eq_some hW2
    obtain ⟨hl1, hl2, hframe, hwr⟩ := addStep_spec viewFn buildV rest _ _ _ _ _ _ _ _ h
    refine ⟨by simpa using hl1, by simpa using hl2, ?_, ?_⟩
    · intro p hp
      simp only [List.map_cons, List.mem_cons, not_or] at hp
      obtain ⟨hf1, hf2⟩ := hframe p hp.2
      rw [hf1, hf2, List.getElem?_set_ne (fun he => hp.1 he.symm),
        List.getElem?_set_ne (fun he => hp.1 he.symm)]
      exact ⟨rfl, rfl⟩
    · intro hnd a ha
      simp only [List.map_cons, List.nodup_cons] at hnd
      rcases List.mem_cons.mp ha with rfl | ha
      · refine ⟨t, hit_get, ?_, ?_⟩
        · have hfr := hframe at0 hnd.1
          rw [hfr.1, List.getElem?_set_self hlt1]
        · have hfr := hframe at0 hnd.1
          rw [hfr.2, List.getElem?_set_self hlt2]
      · obtain ⟨t2, hti, hca, hia⟩ := hwr hnd.2 a ha
        refine ⟨t2, ?_, hca, hia⟩
        rw [← hti, List.getElem?_set_ne]
        intro he
        exact hnd.1 (he ▸ List.mem_map.mpr ⟨a, ha, rfl⟩)

theorem not_mem_take_of_nodup {l : List α} (hnd : l.Nodup) {i : Nat} {x : α}
    (hx : l[i]? = some x) : x ∉ l.take i := by
  intro hmem
  obtain ⟨j, hj⟩ := List.mem_iff_getElem?.mp hmem
  have hjl := lt_length_of_getElem?_some hj
  rw [List.length_take] at hjl
  have hjlt : j < i := lt_of_lt_of_le hjl (min_le_left _ _)
  have hlj : l[j]? = some x := by
    rw [← List.getElem?_take_of_lt hjlt]
    exact hj
  exact List.nodup_iff_getElem?_ne_getElem?.mp hnd j i hjlt
    (lt_length_of_getElem?_some hx) (by rw [hlj, hx])

/-- The invariants assumed of the Diff Computer and Move Unpacker outputs for a
pass, relative to the two (post-clear) slot arrays and the length
`newLen` of the new key sequence: move and add commands target distinct
positions inside the new range and together with the position-unchanged slots
cover it exactly; removals and move sources are consistent; the incoming
arrays are parallel and hole-free. -/
structure ReconInv (d : Diff) (moveCmds : List DiffOpMove) (addCmds : List DiffOpAdd)
    (children : List (Option S)) (indexItems : List (Option IndexBinding))
    (newLen : Nat) : Prop where
  len_ii : indexItems.length = children.length
  new_le : newLen ≤ children.length + d.added.length
  tos_lt : ∀ m ∈ moveCmds, m.to_ < newLen
  ats_lt : ∀ a ∈ addCmds, a.at_ < newLen
  tos_nodup : (moveCmds.map DiffOpMove.to_).Nodup
  ats_nodup : (addCmds.map DiffOpAdd.at_).Nodup
  tos_ats_disj : ∀ m ∈ moveCmds, ∀ a ∈ addCmds, m.to_ ≠ a.at_
  unchanged_stays : ∀ p, p < children.length →
    p ∉ d.removed.map DiffOpRemove.at_ → p ∉ moveCmds.map DiffOpMove.from_ →
    p < newLen ∧ p ∉ moveCmds.map DiffOpMove.to_ ∧ p ∉ addCmds.map DiffOpAdd.at_
  new_covered : ∀ p, p < newLen →
    p ∈ moveCmds.map DiffOpMove.to_ ∨ p ∈ addCmds.map DiffOpAdd.at_ ∨
      (p < children.length ∧ p ∉ d.removed.map DiffOpRemove.at_ ∧
        p ∉ moveCmds.map DiffOpMove.from_)
  src_not_removed : ∀ m ∈ moveCmds, m.from_ ∉ d.removed.map DiffOpRemove.at_
  src_nodup : (moveCmds.map DiffOpMove.from_).Nodup
  no_holes_ch : ∀ p, p < children.length → slotFilled children p
  no_holes_ii : ∀ p, p < children.length → slotFilled indexItems p

theorem applyDiffSteps_char {T V S : Type} {d : Diff} {moveCmds : List DiffOpMove}
    {addCmds : List DiffOpAdd} {viewFn : Nat → T → IndexBinding × V} {buildV : V → S}
    {childrenIn children : List (Option S)} {items : List (Option T)}
    {indexItemsIn indexItems : List (Option IndexBinding)} {newLen : Nat}
    {st : ApplyResult S}
    (hinv : ReconInv d moveCmds addCmds children indexItems newLen)
    (h0c : (if d.clear then [] else childrenIn) = children)
    (h0i : (if d.clear then [] else indexItemsIn) = indexItems)
    (hsucc : applyDiffSteps d moveCmds addCmds viewFn buildV childrenIn items
      indexItemsIn = some st) :
    st.children.length = children.length + d.added.length ∧
    st.indexItems.length = children.length + d.added.length ∧
    (∀ m ∈ moveCmds,
      st.children[m.to_]? = children[m.from_]? ∧
      ∃ bop, indexItems[m.from_]? = some bop ∧
        st.indexItems[m.to_]? = some (bop.map (fun b => b.set m.to_))) ∧
    (∀ a ∈ addCmds, ∃ t, items[a.at_]? = some (some t) ∧
      st.children[a.at_]? = some (some (buildV (viewFn a.at_ t).2)) ∧
      st.indexItems[a.at_]? = some (some (viewFn a.at_ t).1)) ∧
    (∀ p, p < children.length → p ∉ d.removed.map DiffOpRemove.at_ →
      p ∉ moveCmds.map DiffOpMove.from_ →
      st.children[p]? = children[p]? ∧ st.indexItems[p]? = indexItems[p]?) ∧
    (∀ p, newLen ≤ p → p < children.length + d.added.length →
      st.children[p]? = some none ∧ st.indexItems[p]? = some none) ∧
    (∀ p, p < newLen → slotFilled st.children p ∧ slotFilled st.indexItems p) := by
  simp only [applyDiffSteps] at hsucc
  obtain ⟨⟨ch4, ii4, bufC3, bufI3, tr2⟩, hs14, hsucc⟩ := Option.bind_eq_some.mp hsucc
  simp only [stage14] at hs14
  rw [h0c, h0i] at hs14
  obtain ⟨⟨ch2, ii2, tr2b⟩, hrem, hs14⟩ := Option.bind_eq_some.mp hs14
  obtain ⟨⟨ch3, ii3, bufC, bufI⟩, hmo, hs14⟩ := Option.bind_eq_some.mp hs14
  simp only [Option.some.injEq, Prod.mk.injEq] at hs14
  obtain ⟨rfl, rfl, rfl, rfl, rfl⟩ := hs14
  obtain ⟨⟨ch5, ii5, tr5⟩, hlog, hsucc⟩ := Option.bind_eq_some.mp hsucc
  obtain ⟨⟨ch6, ii6, tr6⟩, hphys, hsucc⟩ := Option.bind_eq_some.mp hsucc
  obtain ⟨⟨ch7, items7, ii7, tr7⟩, hadd, hsucc⟩ := Option.bind_eq_some.mp hsucc
  simp only [Option.some.injEq] at hsucc
  subst hsucc
  obtain ⟨hr_len1, hr_len2, hr_frame, hr_mem⟩ := removeStep_spec _ _ _ _ _ _ _ hrem
  obtain ⟨hm_len1, hm_len2, hm_len3, hm_len4, hm_frame, hm_src, hm_buf⟩ :=
    moveOutStep_spec _ _ _ _ _ _ _ hmo
  obtain ⟨hl_len1, hl_len2, hl_tr, hl_frame, hl_wr⟩ :=
    moveInLogical_spec _ _ _ _ _ _ _ hlog
  obtain ⟨hp_len1, hp_len2, hp_frame, hp_wr⟩ := moveInPhysical_spec _ _ _ _ _ _ _ hphys
  obtain ⟨ha_len1, ha_len2, ha_frame, ha_wr⟩ := addStep_spec _ _ _ _ _ _ _ _ _ _ _ hadd
  try dsimp only at hr_len1 hr_len2 hr_frame hr_mem
  try dsimp only at hm_len1 hm_len2 hm_len3 hm_len4 hm_frame hm_src hm_buf
  try dsimp only at hl_len1 hl_len2 hl_tr hl_frame hl_wr
  try dsimp only at hp_len1 hp_len2 hp_frame hp_wr
  try dsimp only at ha_len1 ha_len2 ha_frame ha_wr
  have hzip_len : (bufC.zip bufI).length = moveCmds.length := by
    rw [List.length_zip, hm_len3, hm_len4, Nat.min_self]
  have hzc_fst : (moveCmds.zip (bufC.zip bufI)).map Prod.fst = moveCmds :=
    List.map_fst_zip _ _ (by rw [hzip_len])
  have hzc_tos : (moveCmds.zip (bufC.zip bufI)).map (fun z => z.1.to_) =
      moveCmds.map DiffOpMove.to_ := by
    have he : (fun (z : DiffOpMove × Option S × Option IndexBinding) => z.1.to_) =
        DiffOpMove.to_ ∘ Prod.fst := rfl
    rw [he, ← List.map_map, hzc_fst]
  have hzc_nodup : ((moveCmds.zip (bufC.zip bufI)).map (fun z => z.1.to_)).Nodup := by
    rw [hzc_tos]; exact hinv.tos_nodup
  have hmove_z : ∀ m ∈ moveCmds, ∃ cv bv,
      (m, cv, bv) ∈ moveCmds.zip (bufC.zip bufI) ∧
      children[m.from_]? = some cv ∧ indexItems[m.from_]? = some bv := by
    intro m hm
    obtain ⟨i, hi⟩ := List.mem_iff_getElem?.mp hm
    have hiC : i < bufC.length := by rw [hm_len3]; exact lt_length_of_getElem?_some hi
    have hiI : i < bufI.length := by rw [hm_len4]; exact lt_length_of_getElem?_some hi
    obtain ⟨cv, hcv⟩ : ∃ cv, bufC[i]? = some cv :=
      ⟨bufC[i], List.getElem?_eq_getElem hiC⟩
    obtain ⟨bv, hbv⟩ : ∃ bv, bufI[i]? = some bv :=
      ⟨bufI[i], List.getElem?_eq_getElem hiI⟩
    have hbufi := hm_buf i m hi
    have hnotin : m.from_ ∉ (moveCmds.take i).map DiffOpMove.from_ := by
      rw [List.map_take]
      exact not_mem_take_of_nodup hinv.src_nodup (by rw [List.getElem?_map, hi]; rfl)
    rw [if_neg hnotin] at hbufi
    have hfr := hr_frame m.from_ (hinv.src_not_removed m hm)
    refine ⟨cv, bv, ?_, ?_, ?_⟩
    · exact List.mem_iff_getElem?.mpr ⟨i, List.getElem?_zip_eq_some.mpr
        ⟨hi, List.getElem?_zip_eq_some.mpr ⟨hcv, hbv⟩⟩⟩
    · rw [← hfr.1, ← hbufi.1]; exact hcv
    · rw [← hfr.2, ← hbufi.2]; exact hbv
  have hmove_concl : ∀ m ∈ moveCmds,
      ch7[m.to_]? = children[m.from_]? ∧
      ∃ bop, indexItems[m.from_]? = some bop ∧
        ii7[m.to_]? = some (bop.map (fun b => b.set m.to_)) := by
    intro m hm
    obtain ⟨cv, bv, hzmem, hcv, hbv⟩ := hmove_z m hm
    have hto_not_at : m.to_ ∉ addCmds.map DiffOpAdd.at_ := by
      intro hmem
      obtain ⟨a, ha, hae⟩ := List.mem_map.mp hmem
      exact hinv.tos_ats_disj m hm a ha hae.symm
    have ha_fr := ha_frame m.to_ hto_not_at
    cases hd : m.move_in_dom with
    | false =>
      have hw := hl_wr hzc_nodup (m, cv, bv) hzmem hd
      try dsimp only at hw
      have hto_not_phys : m.to_ ∉ ((moveCmds.zip (bufC.zip bufI)).filter
          (fun z => z.1.move_in_dom)).map (fun z => z.1.to_) := by
        intro hmem
        obtain ⟨z', hz', he⟩ := List.mem_map.mp hmem
        have hz'mem := List.mem_of_mem_filter hz'
        have hz'phys := List.of_mem_filter hz'
        have hz'eq : z' = (m, cv, bv) :=
          List.inj_on_of_nodup_map hzc_nodup hz'mem hzmem (by rw [he])
        rw [hz'eq] at hz'phys
        rw [hd] at hz'phys
        cases hz'phys
      have hp_fr := hp_frame m.to_ hto_not_phys
      constructor
      · rw [ha_fr.1, hp_fr.1, hw.1, hcv]
      · exact ⟨bv, hbv, by rw [ha_fr.2, hp_fr.2, hw.2]⟩
    | true =>
      obtain ⟨c, hc, hwch, hwii⟩ := hp_wr hzc_nodup (m, cv, bv) hzmem hd
      try dsimp only at hc hwch hwii
      constructor
      · rw [ha_fr.1, hwch, hcv, hc]
      · exact ⟨bv, hbv, by rw [ha_fr.2, hwii]⟩
  have hadd_concl := ha_wr hinv.ats_nodup
  have hunch : ∀ p, p < children.length → p ∉ d.removed.map DiffOpRemove.at_ →
      p ∉ moveCmds.map DiffOpMove.from_ →
      ch7[p]? = children[p]? ∧ ii7[p]? = indexItems[p]? := by
    intro p hp hpr hps
    obtain ⟨hpn, hpt, hpa⟩ := hinv.unchanged_stays p hp hpr hps
    have h2 := hr_frame p hpr
    have h3 := hm_frame p hps
    have h4c : (ch3 ++ List.replicate d.added.length (none : Option S))[p]? = ch3[p]? :=
      List.getElem?_append_left (by rw [hm_len1, hr_len1]; exact hp)
    have h4i : (ii3 ++ List.replicate d.added.length (none : Option IndexBinding))[p]? =
        ii3[p]? :=
      List.getElem?_append_left (by rw [hm_len2, hr_len2, hinv.len_ii]; exact hp)
    have h5 := hl_frame p
      (fun hmem => hpt (by rw [← hzc_tos]; exact filtered_tos_subset _ _ p hmem))
    have h6 := hp_frame p
      (fun hmem => hpt (by rw [← hzc_tos]; exact filtered_tos_subset _ _ p hmem))
    have h7 := ha_frame p hpa
    constructor
    · rw [h7.1, h6.1, h5.1, h4c, h3.1, h2.1]
    · rw [h7.2, h6.2, h5.2, h4i, h3.2, h2.2]
  have hch4_none : ∀ p, newLen ≤ p → p < children.length + d.added.length →
      (ch3 ++ List.replicate d.added.length (none : Option S))[p]? = some none ∧
      (ii3 ++ List.replicate d.added.length (none : Option IndexBinding))[p]? =
        some none := by
    intro p hpge hplt
    by_cases hpn : p < children.length
    · have happl : (ch3 ++ List.replicate d.added.length (none : Option S))[p]? =
          ch3[p]? :=
        List.getElem?_append_left (by rw [hm_len1, hr_len1]; exact hpn)
      have happl2 : (ii3 ++ List.replicate d.added.length
          (none : Option IndexBinding))[p]? = ii3[p]? :=
        List.getElem?_append_left (by rw [hm_len2, hr_len2, hinv.len_ii]; exact hpn)
      by_cases hsrc : p ∈ moveCmds.map DiffOpMove.from_
      · obtain ⟨m, hm, rfl⟩ := List.mem_map.mp hsrc
        exact ⟨by rw [happl]; exact (hm_src m hm).1,
          by rw [happl2]; exact (hm_src m hm).2⟩
      · have hrs : p ∈ d.removed.map DiffOpRemove.at_ := by
          by_contra hcon
          exact absurd (hinv.unchanged_stays p hpn hcon hsrc).1 (Nat.not_lt.mpr hpge)
        have h2 := hr_mem p hrs
        have h3 := hm_frame p hsrc
        exact ⟨by rw [happl, h3.1, h2.1], by rw [happl2, h3.2, h2.2]⟩
    · push_neg at hpn
      have h1 : (ch3 ++ List.replicate d.added.length (none : Option S))[p]? =
          (List.replicate d.added.length (none : Option S))[p - ch3.length]? :=
        List.getElem?_append_right (by rw [hm_len1, hr_len1]; exact hpn)
      have h2 : (ii3 ++ List.replicate d.added.length
          (none : Option IndexBinding))[p]? =
          (List.replicate d.added.length (none : Option IndexBinding))[p - ii3.length]? :=
        List.getElem?_append_right (by rw [hm_len2, hr_len2, hinv.len_ii]; exact hpn)
      have hlt1 : p - ch3.length < d.added.length := by
        rw [hm_len1, hr_len1]
        omega
      have hlt2 : p - ii3.length < d.added.length := by
        rw [hm_len2, hr_len2, hinv.len_ii]
        omega
      constructor
      · rw [h1, List.getElem?_replicate, if_pos hlt1]
      · rw [h2, List.getElem?_replicate, if_pos hlt2]
  have hholes : ∀ p, newLen ≤ p → p < children.length + d.added.length →
      ch7[p]? = some none ∧ ii7[p]? = some none := by
    intro p hpge hplt
    have hpt : p ∉ moveCmds.map DiffOpMove.to_ := by
      intro hmem
      obtain ⟨m, hm, rfl⟩ := List.mem_map.mp hmem
      exact absurd (hinv.tos_lt m hm) (Nat.not_lt.mpr hpge)
    have hpa : p ∉ addCmds.map DiffOpAdd.at_ := by
      intro hmem
      obtain ⟨a, ha, rfl⟩ := List.mem_map.mp hmem
      exact absurd (hinv.ats_lt a ha) (Nat.not_lt.mpr hpge)
    have h0 := hch4_none p hpge hplt
    have h5 := hl_frame p
      (fun hmem => hpt (by rw [← hzc_tos]; exact filtered_tos_subset _ _ p hmem))
    have h6 := hp_frame p
      (fun hmem => hpt (by rw [← hzc_tos]; exact filtered_tos_subset _ _ p hmem))
    have h7 := ha_frame p hpa
    exact ⟨by rw [h7.1, h6.1, h5.1]; exact h0.1, by rw [h7.2, h6.2, h5.2]; exact h0.2⟩
  have hfilled : ∀ p, p < newLen → slotFilled ch7 p ∧ slotFilled ii7 p := by
    intro p hp
    rcases hinv.new_covered p hp with hmem | hmem | hun
    · obtain ⟨m, hm, rfl⟩ := List.mem_map.mp hmem
      obtain ⟨hch_eq, bop, hbop, hii_eq⟩ := hmove_concl m hm
      obtain ⟨cv, bv, _, hcv, hbv⟩ := hmove_z m hm
      have hfl : m.from_ < children.length := lt_length_of_getElem?_some hcv
      obtain ⟨c, hc⟩ := hinv.no_holes_ch m.from_ hfl
      obtain ⟨b, hb⟩ := hinv.no_holes_ii m.from_ hfl
      have hbop_b : bop = some b := by
        rw [hbop] at hb
        exact Option.some.inj hb
      constructor
      · exact ⟨c, by rw [hch_eq]; exact hc⟩
      · exact ⟨b.set m.to_, by rw [hii_eq, hbop_b]; rfl⟩
    · obtain ⟨a, ha, rfl⟩ := List.mem_map.mp hmem
      obtain ⟨t, ht, hca, hia⟩ := hadd_concl a ha
      exact ⟨⟨_, hca⟩, ⟨_, hia⟩⟩
    · obtain ⟨h1, h2, h3⟩ := hun
      obtain ⟨hc7, hi7⟩ := hunch p h1 h2 h3
      obtain ⟨c, hc⟩ := hinv.no_holes_ch p h1
      obtain ⟨b, hb⟩ := hinv.no_holes_ii p h1
      exact ⟨⟨c, by rw [hc7]; exact hc⟩, ⟨b, by rw [hi7]; exact hb⟩⟩
  have hlen_ch : ch7.length = children.length + d.added.length := by
    rw [ha_len1, hp_len1, hl_len1, List.length_append, List.length_replicate,
      hm_len1, hr_len1]
  have hlen_ii : ii7.length = children.length + d.added.length := by
    rw [ha_len2, hp_len2, hl_len2, List.length_append, List.length_replicate,
      hm_len2, hr_len2, hinv.len_ii]
  exact ⟨hlen_ch, hlen_ii, hmove_concl, hadd_concl, hunch, hholes, hfilled⟩

theorem pruneHoles_eq_take : ∀ (l : List (Option α)) (k : Nat),
    (∀ p, p < k → ∃ x, l[p]? = some (some x)) →
    (∀ p, k ≤ p → p < l.length → l[p]? = some none) →
    pruneHoles l = l.take k
  | [], k, _, _ => by simp [pruneHoles]
  | a :: t, 0, _, h2 => by
    have ha : a = none := by
      have h0 := h2 0 (Nat.zero_le _) (by simp)
      simpa using h0
    subst ha
    have hrec := pruneHoles_eq_take t 0 (fun p hp => absurd hp (Nat.not_lt_zero p))
      (fun p _ hp => by
        have hp2 := h2 (p + 1) (Nat.zero_le _) (by simpa using Nat.succ_lt_succ hp)
        simpa using hp2)
    simp only [pruneHoles, List.filter_cons] at hrec ⊢
    simpa using hrec
  | a :: t, k + 1, h1, h2 => by
    obtain ⟨x, hx⟩ := h1 0 (Nat.succ_pos _)
    have ha : a = some x := by simpa using hx
    subst ha
    have hrec := pruneHoles_eq_take t k
      (fun p hp => by
        have hp1 := h1 (p + 1) (Nat.succ_lt_succ hp)
        simpa using hp1)
      (fun p hkp hp => by
        have hp2 := h2 (p + 1) (Nat.succ_le_succ hkp) (by simpa using Nat.succ_lt_succ hp)
        simpa using hp2)
    simp only [pruneHoles, List.filter_cons, Option.isSome_some, if_true,
      List.take_succ_cons] at hrec ⊢
    simpa using hrec

theorem applyDiffCmds_inv {T V S : Type} {d : Diff} {moveCmds : List DiffOpMove}
    {addCmds : List DiffOpAdd} {viewFn : Nat → T → IndexBinding × V} {buildV : V → S}
    {children : List (Option S)} {items : List (Option T)}
    {indexItems : List (Option IndexBinding)} {res : ApplyResult S}
    (hguard : d.clear = false ∨ d.added ≠ [])
    (h : applyDiffCmds d moveCmds addCmds viewFn buildV children items indexItems
      = some res) :
    ∃ st, applyDiffSteps d moveCmds addCmds viewFn buildV children items indexItems
        = some st ∧
      res = ⟨pruneHoles st.children, pruneHoles st.indexItems, st.trace⟩ := by
  have hcond : (d.clear && d.added.isEmpty) = false := by
    rcases hguard with h1 | h1
    · rw [h1]
      rfl
    · cases hc : d.clear
      · rfl
      · cases ha : d.added with
        | nil => exact absurd ha h1
        | cons a rest => rfl
  simp only [applyDiffCmds, hcond, Bool.false_eq_true, if_false] at h
  obtain ⟨st, hst, h⟩ := Option.bind_eq_some.mp h
  exact ⟨st, hst, (Option.some.inj h).symm⟩

/-- C1: after a reconciliation pass completes under the Diff Computer and Move
Unpacker invariants, every moved child's index binding is the taken binding
updated by `set` to its destination, so it holds exactly its position in the
new sequence; every position-unchanged child's binding still holds its
(unchanged) position; and every added child's slot stores exactly the binding
returned by the builder invoked with the destination index. -/
theorem c1_index_bindings_after_apply {T V S : Type} {d : Diff}
    {moveCmds : List DiffOpMove} {addCmds : List DiffOpAdd}
    {viewFn : Nat → T → IndexBinding × V} {buildV : V → S}
    {childrenIn children : List (Option S)} {items : List (Option T)}
    {indexItemsIn indexItems : List (Option IndexBinding)} {newLen : Nat}
    {res : ApplyResult S}
    (hinv : ReconInv d moveCmds addCmds children indexItems newLen)
    (h0c : (if d.clear then [] else childrenIn) = children)
    (h0i : (if d.clear then [] else indexItemsIn) = indexItems)
    (hguard : d.clear = false ∨ d.added ≠ [])
    (hvals : ∀ p, p < children.length → p ∉ d.removed.map DiffOpRemove.at_ →
      p ∉ moveCmds.map DiffOpMove.from_ → slotBoundVal indexItems p p)
    (hsucc : applyDiffCmds d moveCmds addCmds viewFn buildV childrenIn items
      indexItemsIn = some res) :
    (∀ m ∈ moveCmds, ∃ b, indexItems[m.from_]? = some (some b) ∧
      res.indexItems[m.to_]? = some (some (b.set m.to_)) ∧ (b.set m.to_).val = m.to_) ∧
    (∀ a ∈ addCmds, ∃ t, items[a.at_]? = some (some t) ∧
      res.indexItems[a.at_]? = some (some (viewFn a.at_ t).1)) ∧
    (∀ p, p < children.length → p ∉ d.removed.map DiffOpRemove.at_ →
      p ∉ moveCmds.map DiffOpMove.from_ → slotBoundVal res.indexItems p p) := by
  obtain ⟨st, hst, rfl⟩ := applyDiffCmds_inv hguard hsucc
  obtain ⟨hlen_ch, hlen_ii, hmove, hadd, hunch, hholes, hfilled⟩ :=
    applyDiffSteps_char hinv h0c h0i hst
  have htake : pruneHoles st.indexItems = st.indexItems.take newLen :=
    pruneHoles_eq_take _ _ (fun p hp => (hfilled p hp).2)
      (fun p hk hp => (hholes p hk (by rw [← hlen_ii]; exact hp)).2)
  have hget : ∀ p, p < newLen → (pruneHoles st.indexItems)[p]? = st.indexItems[p]? := by
    intro p hp
    rw [htake]
    exact List.getElem?_take_of_lt hp
  refine ⟨?_, ?_, ?_⟩
  · intro m hm
    obtain ⟨hchm, bop, hbop, hiim⟩ := hmove m hm
    have hfl : m.from_ < children.length := by
      rw [← hinv.len_ii]
      exact lt_length_of_getElem?_some hbop
    obtain ⟨b, hb⟩ := hinv.no_holes_ii m.from_ hfl
    have hbop_b : bop = some b := by
      rw [hbop] at hb
      exact Option.some.inj hb
    refine ⟨b, hb, ?_, rfl⟩
    rw [hget m.to_ (hinv.tos_lt m hm), hiim, hbop_b]
    rfl
  · intro a ha
    obtain ⟨t, ht, _, hia⟩ := hadd a ha
    refine ⟨t, ht, ?_⟩
    rw [hget a.at_ (hinv.ats_lt a ha)]
    exact hia
  · intro p hp hpr hps
    obtain ⟨b, hb, hbv⟩ := hvals p hp hpr hps
    obtain ⟨hpn, _, _⟩ := hinv.unchanged_stays p hp hpr hps
    refine ⟨b, ?_, hbv⟩
    rw [hget p hpn, (hunch p hp hpr hps).2]
    exact hb

theorem c1_witness :
    (ApplyResult.mk [some 21, some 20, some 12]
      [some (IndexBinding.mk 101 0), some (IndexBinding.mk 100 1),
        some (IndexBinding.mk 112 2)]
      [HostOp.insertBefore 20 21, HostOp.mount 12] : ApplyResult Nat).indexItems[0]?
      = some (some (IndexBinding.mk 101 0)) := by
  have h := @c1_index_bindings_after_apply Nat Nat Nat
    ⟨[], [⟨0, 1, false⟩, ⟨1, 0, true⟩], [⟨2, DiffOpAddMode.Append⟩], false⟩
    [⟨0, 1, false⟩, ⟨1, 0, true⟩]
    [⟨2, DiffOpAddMode.Append⟩]
    (fun i t => (⟨t + 100, i⟩, t)) (fun v => v)
    [some 20, some 21] [some 20, some 21]
    [some 10, some 11, some 12]
    [some ⟨100, 0⟩, some ⟨101, 1⟩] [some ⟨100, 0⟩, some ⟨101, 1⟩] 3
    (ApplyResult.mk [some 21, some 20, some 12]
      [some (IndexBinding.mk 101 0), some (IndexBinding.mk 100 1),
        some (IndexBinding.mk 112 2)]
      [HostOp.insertBefore 20 21, HostOp.mount 12])
    (by
      refine ⟨rfl, by decide, by decide, by decide, by decide, by decide,
        by decide, ?_, ?_, by decide, by decide, by decide, by decide⟩
      · intro p hp h1 h2
        exfalso
        apply h2
        simp only [List.map_cons, List.map_nil, List.mem_cons, List.not_mem_nil,
          or_false]
        simp only [List.length_cons, List.length_nil] at hp
        omega
      · intro p hp
        simp only [List.map_cons, List.map_nil, List.mem_cons, List.not_mem_nil,
          or_false, List.length_cons, List.length_nil]
        omega)
    rfl rfl (Or.inl rfl)
    (by
      intro p hp h1 h2
      exfalso
      apply h2
      simp only [List.map_cons, List.map_nil, List.mem_cons, List.not_mem_nil,
        or_false]
      simp only [List.length_cons, List.length_nil] at hp
      omega)
    (by decide)
  obtain ⟨b, hb, hr, _⟩ := h.1 ⟨1, 0, true⟩ (by decide)
  have hb2 : b = ⟨101, 1⟩ := by simpa using hb.symm
  subst hb2
  exact hr

/-- C2, amended: under the Diff Computer and Move Unpacker invariants, steps 1
to 6 leave no hole in the first `newLen` slots, but every slot at or beyond
`newLen` (one per removal) is a hole; the final drain removes exactly that
tail, so it removes nothing precisely when the arrays were not oversized
(no removals outside the clear path). -/
theorem c2_holes_after_step6 {T V S : Type} {d : Diff} {moveCmds : List DiffOpMove}
    {addCmds : List DiffOpAdd} {viewFn : Nat → T → IndexBinding × V} {buildV : V → S}
    {childrenIn children : List (Option S)} {items : List (Option T)}
    {indexItemsIn indexItems : List (Option IndexBinding)} {newLen : Nat}
    {st : ApplyResult S}
    (hinv : ReconInv d moveCmds addCmds children indexItems newLen)
    (h0c : (if d.clear then [] else childrenIn) = children)
    (h0i : (if d.clear then [] else indexItemsIn) = indexItems)
    (hsucc : applyDiffSteps d moveCmds addCmds viewFn buildV childrenIn items
      indexItemsIn = some st) :
    (∀ p, p < newLen → st.children[p]? ≠ some none ∧ st.indexItems[p]? ≠ some none) ∧
    (∀ p, newLen ≤ p → p < children.length + d.added.length →
      st.children[p]? = some none ∧ st.indexItems[p]? = some none) ∧
    pruneHoles st.children = st.children.take newLen ∧
    pruneHoles st.indexItems = st.indexItems.take newLen ∧
    (pruneHoles st.children).length = newLen ∧
    (pruneHoles st.indexItems).length = newLen ∧
    (newLen = children.length + d.added.length →
      pruneHoles st.children = st.children ∧ pruneHoles st.indexItems = st.indexItems) := by
  obtain ⟨hlen_ch, hlen_ii, _, _, _, hholes, hfilled⟩ :=
    applyDiffSteps_char hinv h0c h0i hsucc
  have htakeC : pruneHoles st.children = st.children.take newLen :=
    pruneHoles_eq_take _ _ (fun p hp => (hfilled p hp).1)
      (fun p hk hp => (hholes p hk (by rw [← hlen_ch]; exact hp)).1)
  have htakeI : pruneHoles st.indexItems = st.indexItems.take newLen :=
    pruneHoles_eq_take _ _ (fun p hp => (hfilled p hp).2)
      (fun p hk hp => (hholes p hk (by rw [← hlen_ii]; exact hp)).2)
  refine ⟨?_, ?_, htakeC, htakeI, ?_, ?_, ?_⟩
  · intro p hp
    obtain ⟨⟨c, hc⟩, ⟨b, hb⟩⟩ := hfilled p hp
    exact ⟨by rw [hc]; simp, by rw [hb]; simp⟩
  · exact fun p h1 h2 => hholes p h1 h2
  · rw [htakeC, List.length_take, hlen_ch]
    exact Nat.min_eq_left hinv.new_le
  · rw [htakeI, List.length_take, hlen_ii]
    exact Nat.min_eq_left hinv.new_le
  · intro he
    constructor
    · rw [htakeC, he, ← hlen_ch, List.take_length]
    · rw [htakeI, he, ← hlen_ii, List.take_length]

theorem c2_counterexample :
    ReconInv (diff [0, 1] [1]) [⟨1, 0, false⟩] [] ([some 0, some 1] : List (Option Nat))
      [some ⟨100, 0⟩, some ⟨101, 1⟩] 1 ∧
    unpack_moves (diff [0, 1] [1]) = ([⟨1, 0, false⟩], []) ∧
    applyDiffSteps (diff [0, 1] [1]) [⟨1, 0, false⟩] []
      (fun i t => (⟨t + 100, i⟩, t)) (fun v : Nat => v) [some 0, some 1] [some 1]
      [some ⟨100, 0⟩, some ⟨101, 1⟩]
      = some ⟨[some 1, none], [some ⟨101, 0⟩, none], [HostOp.unmount 0]⟩ ∧
    ([some 1, none] : List (Option Nat))[1]? = some none ∧
    pruneHoles ([some 1, none] : List (Option Nat)) ≠ [some 1, none] := by
  refine ⟨?_, by decide, by decide, by decide, by decide⟩
  refine ⟨rfl, by decide, by decide, by decide, by decide, by decide,
    by decide, ?_, ?_, by decide, by decide, by decide, by decide⟩
  · intro p hp h1 h2
    exfalso
    simp only [List.length_cons, List.length_nil] at hp
    have hp01 : p = 0 ∨ p = 1 := by omega
    rcases hp01 with rfl | rfl
    · exact h1 (by decide)
    · exact h2 (by decide)
  · intro p hp
    have hp0 : p = 0 := by omega
    subst hp0
    exact Or.inl (by decide)

theorem c2_witness :
    pruneHoles ([some 21, some 20, some 12] : List (Option Nat))
      = [some 21, some 20, some 12] := by
  have h := @c2_holes_after_step6 Nat Nat Nat
    ⟨[], [⟨0, 1, false⟩, ⟨1, 0, true⟩], [⟨2, DiffOpAddMode.Append⟩], false⟩
    [⟨0, 1, false⟩, ⟨1, 0, true⟩]
    [⟨2, DiffOpAddMode.Append⟩]
    (fun i t => (⟨t + 100, i⟩, t)) (fun v : Nat => v)
    [some 20, some 21] [some 20, some 21]
    [some 10, some 11, some 12]
    [some ⟨100, 0⟩, some ⟨101, 1⟩] [some ⟨100, 0⟩, some ⟨101, 1⟩] 3
    (ApplyResult.mk [some 21, some 20, some 12]
      [some (IndexBinding.mk 101 0), some (IndexBinding.mk 100 1),
        some (IndexBinding.mk 112 2)]
      [HostOp.insertBefore 20 21, HostOp.mount 12])
    (by
      refine ⟨rfl, by decide, by decide, by decide, by decide, by decide,
        by decide, ?_, ?_, by decide, by decide, by decide, by decide⟩
      · intro p hp h1 h2
        exfalso
        apply h2
        simp only [List.map_cons, List.map_nil, List.mem_cons, List.not_mem_nil,
          or_false]
        simp only [List.length_cons, List.length_nil] at hp
        omega
      · intro p hp
        simp only [List.map_cons, List.map_nil, List.mem_cons, List.not_mem_nil,
          or_false, List.length_cons, List.length_nil]
        omega)
    rfl rfl
    (by decide)
  exact (h.2.2.2.2.2.2 (by decide)).1

/-- C3, amended: step 4 grows both arrays by the number of additions, from
their current length (the old length, which removals and move-outs leave
unchanged, or zero after a clear drain); the new slots are holes. The result
equals the new sequence length only when the script has no removals (after a
clear it is exactly the addition count). -/
theorem c3_resize_grows_by_additions {S : Type} {d : Diff}
    {moveCmds : List DiffOpMove} {children : List (Option S)}
    {indexItems : List (Option IndexBinding)}
    {out : List (Option S) × List (Option IndexBinding) × List (Option S) ×
      List (Option IndexBinding) × List (HostOp S)}
    (h : stage14 d moveCmds children indexItems = some out) :
    out.1.length = (if d.clear then 0 else children.length) + d.added.length ∧
    out.2.1.length = (if d.clear then 0 else indexItems.length) + d.added.length ∧
    out.1.drop (if d.clear then 0 else children.length)
      = List.replicate d.added.length none ∧
    out.2.1.drop (if d.clear then 0 else indexItems.length)
      = List.replicate d.added.length none := by
  cases hc : d.clear
  case false =>
    simp only [hc, Bool.false_eq_true, if_false]
    simp only [stage14, hc, Bool.false_eq_true, if_false] at h
    obtain ⟨⟨ch2, ii2, tr2b⟩, hrem, h⟩ := Option.bind_eq_some.mp h
    obtain ⟨⟨ch3, ii3, bufC, bufI⟩, hmo, h⟩ := Option.bind_eq_some.mp h
    simp only [Option.some.injEq] at h
    subst h
    obtain ⟨hr1, hr2, _, _⟩ := removeStep_spec _ _ _ _ _ _ _ hrem
    obtain ⟨hm1, hm2, _, _, _, _, _⟩ := moveOutStep_spec _ _ _ _ _ _ _ hmo
    try dsimp only at hr1 hr2 hm1 hm2
    refine ⟨?_, ?_, ?_, ?_⟩ <;> dsimp only
    · rw [List.length_append, List.length_replicate, hm1, hr1]
    · rw [List.length_append, List.length_replicate, hm2, hr2]
    · rw [show children.length = ch3.length by rw [hm1, hr1], List.drop_left]
    · rw [show indexItems.length = ii3.length by rw [hm2, hr2], List.drop_left]
  case true =>
    simp only [hc, if_true]
    simp only [stage14, hc, if_true] at h
    obtain ⟨⟨ch2, ii2, tr2b⟩, hrem, h⟩ := Option.bind_eq_some.mp h
    obtain ⟨⟨ch3, ii3, bufC, bufI⟩, hmo, h⟩ := Option.bind_eq_some.mp h
    simp only [Option.some.injEq] at h
    subst h
    obtain ⟨hr1, hr2, _, _⟩ := removeStep_spec _ _ _ _ _ _ _ hrem
    obtain ⟨hm1, hm2, _, _, _, _, _⟩ := moveOutStep_spec _ _ _ _ _ _ _ hmo
    try dsimp only at hr1 hr2 hm1 hm2
    have hc1 : ch3.length = 0 := by rw [hm1, hr1]; rfl
    have hc2 : ii3.length = 0 := by rw [hm2, hr2]; rfl
    obtain rfl : ch3 = [] := List.length_eq_zero.mp hc1
    obtain rfl : ii3 = [] := List.length_eq_zero.mp hc2
    refine ⟨?_, ?_, ?_, ?_⟩ <;> simp

theorem c3_counterexample :
    (diff [0, 1] [1]).removed.length = 1 ∧
    stage14 (diff [0, 1] [1]) (unpack_moves (diff [0, 1] [1])).1
      ([some 0, some 1] : List (Option Nat)) [some ⟨100, 0⟩, some ⟨101, 1⟩]
      = some ([none, none], [none, none], [some 1], [some ⟨101, 1⟩],
        [HostOp.unmount 0]) ∧
    ([none, none] : List (Option Nat)).length
      ≠ (hashedKeys (fun t : Nat => t) [1]).length := by
  refine ⟨by decide, by rfl, by decide⟩

theorem c3_witness :
    (([none, none] : List (Option Nat)).length = (if (diff [0, 1] [1]).clear then 0
      else ([some 0, some 1] : List (Option Nat)).length)
        + (diff [0, 1] [1]).added.length) := by
  have h := @c3_resize_grows_by_additions Nat
    (diff [0, 1] [1]) ((unpack_moves (diff [0, 1] [1])).1)
    ([some 0, some 1] : List (Option Nat))
    [some ⟨100, 0⟩, some ⟨101, 1⟩]
    ([none, none], [none, none], [some 1], [some ⟨101, 1⟩],
      [HostOp.unmount 0])
    (by rfl)
  exact h.1

/-- C5: the move-out loop takes the child and index binding out of the source
slot of every move command before any move-in writes a destination — after it
runs, every source slot is a hole, and the buffers hold exactly the original
slot contents, each source slot being read at most once: a repeated source
yields `none` in the buffer, never a second copy of the child. Step 4
(`stage14`) resizes the arrays only after this loop, and step 5 reads only the
buffers. -/
theorem c5_move_out_before_move_in {S : Type} (M : List DiffOpMove)
    (children : List (Option S)) (indexItems : List (Option IndexBinding))
    (ch' : List (Option S)) (ii' : List (Option IndexBinding))
    (bufC : List (Option S)) (bufI : List (Option IndexBinding))
    (h : moveOutStep M children indexItems = some (ch', ii', bufC, bufI)) :
    (∀ m ∈ M, ch'[m.from_]? = some none ∧ ii'[m.from_]? = some none) ∧
    (∀ i m, M[i]? = some m →
      if m.from_ ∈ (M.take i).map DiffOpMove.from_ then
        bufC[i]? = some none ∧ bufI[i]? = some none
      else bufC[i]? = children[m.from_]? ∧ bufI[i]? = indexItems[m.from_]?) := by
  obtain ⟨_, _, _, _, _, hsrc, hbuf⟩ := moveOutStep_spec _ _ _ _ _ _ _ h
  exact ⟨hsrc, hbuf⟩

theorem c5_witness :
    ([some 3, none] : List (Option Nat))[1]? = some none ∧
    ([none] : List (Option Nat))[0]? = some none := by
  have h := c5_move_out_before_move_in [⟨0, 5, true⟩, ⟨0, 7, false⟩]
    ([some 3] : List (Option Nat)) [some ⟨1, 0⟩] [none] [none]
    [some 3, none] [some ⟨1, 0⟩, none] (by rfl)
  have h2 := h.2 1 ⟨0, 7, false⟩ (by decide)
  rw [if_pos (by decide)] at h2
  exact ⟨h2.1, (h.1 ⟨0, 5, true⟩ (by decide)).1⟩

/-- C6: a move command with `move_in_dom = false` performs no host-tree
operation: the logical move-in loop returns the trace unchanged for every
input, and a whole pass whose script has no clear, no removals, no additions
and only logical moves emits no host operation at all — every traced
mount/insert/unmount of a pass comes from the clear drain, the removal loop,
the physical move-in loop or the addition loop. -/
theorem c6_logical_moves_no_host_ops :
    (∀ (S : Type) (Z : List (DiffOpMove × Option S × Option IndexBinding))
      (ch ch' : List (Option S)) (ii ii' : List (Option IndexBinding))
      (tr tr' : List (HostOp S)),
      moveInLogical Z ch ii tr = some (ch', ii', tr') → tr' = tr) ∧
    (∀ (T V S : Type) (d : Diff) (moveCmds : List DiffOpMove)
      (viewFn : Nat → T → IndexBinding × V) (buildV : V → S)
      (children : List (Option S)) (items : List (Option T))
      (indexItems : List (Option IndexBinding)) (res : ApplyResult S),
      d.clear = false → d.removed = [] → d.added = [] →
      (∀ m ∈ moveCmds, m.move_in_dom = false) →
      applyDiffCmds d moveCmds [] viewFn buildV children items indexItems = some res →
      res.trace = []) := by
  constructor
  · intro S Z ch ch' ii ii' tr tr' h
    exact (moveInLogical_spec Z ch ii tr ch' ii' tr' h).2.2.1
  · intro T V S d moveCmds viewFn buildV children items indexItems res hclear hrm had
      hall hsucc
    obtain ⟨st, hst, rfl⟩ := applyDiffCmds_inv (Or.inl hclear) hsucc
    simp only [applyDiffSteps] at hst
    obtain ⟨⟨ch4, ii4, bufC, bufI, tr2⟩, hs14, hst⟩ := Option.bind_eq_some.mp hst
    simp only [stage14, hclear, Bool.false_eq_true, if_false, hrm, had] at hs14
    obtain ⟨⟨ch2, ii2, tr2b⟩, hremS, hs14⟩ := Option.bind_eq_some.mp hs14
    simp only [removeStep, Option.some.injEq, Prod.mk.injEq] at hremS
    obtain ⟨rfl, rfl, rfl⟩ := hremS
    obtain ⟨⟨ch3, ii3, bufC2, bufI2⟩, hmo, hs14⟩ := Option.bind_eq_some.mp hs14
    simp only [Option.some.injEq, Prod.mk.injEq] at hs14
    obtain ⟨rfl, rfl, rfl, rfl, rfl⟩ := hs14
    obtain ⟨⟨ch5, ii5, tr5⟩, hlog, hst⟩ := Option.bind_eq_some.mp hst
    obtain ⟨⟨ch6, ii6, tr6⟩, hphys, hst⟩ := Option.bind_eq_some.mp hst
    obtain ⟨⟨ch7, items7, ii7, tr7⟩, haddS, hst⟩ := Option.bind_eq_some.mp hst
    have htr5 : tr5 = [] := (moveInLogical_spec _ _ _ _ _ _ _ hlog).2.2.1
    have hallZ : ∀ z ∈ moveCmds.zip (bufC2.zip bufI2), z.1.move_in_dom = false := by
      intro z hz
      obtain ⟨z1, z2⟩ := z
      exact hall z1 (List.of_mem_zip hz).1
    have hphys2 := moveInPhysical_all_logical _ ch5 ii5 tr5 hallZ
    rw [hphys2] at hphys
    simp only [Option.some.injEq, Prod.mk.injEq] at hphys
    obtain ⟨rfl, rfl, rfl⟩ := hphys
    simp only [addStep, Option.some.injEq, Prod.mk.injEq] at haddS
    obtain ⟨rfl, rfl, rfl, rfl⟩ := haddS
    simp only [Option.some.injEq] at hst
    subst hst
    exact htr5

theorem c6_witness :
    (ApplyResult.mk [some 21, some 20]
      [some (IndexBinding.mk 101 0), some (IndexBinding.mk 100 1)]
      [] : ApplyResult Nat).trace = ([] : List (HostOp Nat)) :=
  c6_logical_moves_no_host_ops.2 Nat Nat Nat
    ⟨[], [⟨0, 1, false⟩, ⟨1, 0, false⟩], [], false⟩
    [⟨0, 1, false⟩, ⟨1, 0, false⟩] (fun i t => (⟨t + 100, i⟩, t))
    (fun v : Nat => v) [some 20, some 21] [] [some ⟨100, 0⟩, some ⟨101, 1⟩]
    (ApplyResult.mk [some 21, some 20]
      [some (IndexBinding.mk 101 0), some (IndexBinding.mk 100 1)] [])
    rfl rfl rfl (by decide) (by decide)

/-- C7: with the clear flag set, `apply_diff` unmounts every existing child in
slot order and drops all index bindings, leaving both arrays empty, and when
the script has no additions it returns immediately with exactly that state —
independently of any removal or move commands the script may carry, and
without any resize or pruning work. -/
theorem c7_clear_fast_path {T V S : Type} (d : Diff) (moveCmds : List DiffOpMove)
    (addCmds : List DiffOpAdd) (viewFn : Nat → T → IndexBinding × V) (buildV : V → S)
    (children : List (Option S)) (items : List (Option T))
    (indexItems : List (Option IndexBinding))
    (hclear : d.clear = true) (hadd : d.added = []) :
    applyDiffCmds d moveCmds addCmds viewFn buildV children items indexItems
      = some ⟨[], [], (children.filterMap id).map HostOp.unmount⟩ := by
  simp [applyDiffCmds, hclear, hadd, clearTrace]

theorem c7_witness :
    applyDiffCmds (⟨[⟨0⟩, ⟨1⟩], [⟨0, 1, true⟩], [], true⟩ : Diff) [⟨0, 1, true⟩] []
      (fun i t => (⟨t + 100, i⟩, t)) (fun v : Nat => v)
      [some 5, none, some 7] [] [some ⟨100, 0⟩, none, some ⟨102, 2⟩]
      = some ⟨[], [], [HostOp.unmount 5, HostOp.unmount 7]⟩ :=
  c7_clear_fast_path _ _ _ _ _ _ _ _ rfl rfl

theorem moveInPhysical_hole_panics {S : Type} :
    ∀ (Z : List (DiffOpMove × Option S × Option IndexBinding))
    (ch : List (Option S)) (ii : List (Option IndexBinding)) (tr : List (HostOp S))
    (i : Nat) (m : DiffOpMove) (b : Option IndexBinding),
    Z[i]? = some (m, none, b) → m.move_in_dom = true →
    moveInPhysical Z ch ii tr = none
  | [], ch, ii, tr, i, m, b, hZ, hd => by simp at hZ
  | (m0, c0, b0) :: rest, ch, ii, tr, i, m, b, hZ, hd => by
    cases i with
    | zero =>
      simp only [List.getElem?_cons_zero, Option.some.injEq, Prod.mk.injEq] at hZ
      obtain ⟨rfl, rfl, rfl⟩ := hZ
      simp [moveInPhysical, hd]
    | succ i =>
      simp only [List.getElem?_cons_succ] at hZ
      by_cases hd0 : m0.move_in_dom
      · simp only [moveInPhysical, if_pos hd0, Option.bind_eq_bind, Option.bind_eq_none]
        intro each hc0 sibR hsibR
        intro ch1 hch1 ii1 hii1
        exact moveInPhysical_hole_panics rest _ _ _ _ _ _ hZ hd
      · simp only [moveInPhysical, if_neg hd0]
        exact moveInPhysical_hole_panics rest _ _ _ _ _ _ hZ hd

/-- C8: contract violations abort the pass instead of being recovered:
rebuilding a state that has never been mounted (parent still `none`) panics at
the `expect`; processing a removal whose child slot already holds a hole
panics at the `unwrap`; and a physical move whose buffered source value is a
hole panics at the `unwrap` in the physical move-in loop. -/
theorem c8_contract_violations_panic :
    (∀ (K S E T V : Type) [DecidableEq K] (keyFn : T → K)
      (viewFn : Nat → T → IndexBinding × V) (buildV : V → S) (newItems : List T)
      (st : KeyedEnumerateState K S E), st.parent = none →
      rebuild keyFn viewFn buildV newItems st = none) ∧
    (∀ (S : Type) (r : DiffOpRemove) (rest : List DiffOpRemove)
      (children : List (Option S)) (indexItems : List (Option IndexBinding))
      (tr : List (HostOp S)), children[r.at_]? = some none →
      removeStep (r :: rest) children indexItems tr = none) ∧
    (∀ (S : Type) (Z : List (DiffOpMove × Option S × Option IndexBinding))
      (ch : List (Option S)) (ii : List (Option IndexBinding)) (tr : List (HostOp S))
      (i : Nat) (m : DiffOpMove) (b : Option IndexBinding),
      Z[i]? = some (m, none, b) → m.move_in_dom = true →
      moveInPhysical Z ch ii tr = none) := by
  refine ⟨?_, ?_, ?_⟩
  · intro K S E T V instK keyFn viewFn buildV newItems st hparent
    simp [rebuild, hparent]
  · intro S r rest children indexItems tr h
    cases hii : indexItems[r.at_]? with
    | none => simp [removeStep, vecTake, hii]
    | some v => simp [removeStep, vecTake, hii, h]
  · intro S Z ch ii tr i m b hZ hd
    exact moveInPhysical_hole_panics Z ch ii tr i m b hZ hd

theorem c8_witness :
    rebuild (fun t : Nat => t) (fun i t => (⟨t + 100, i⟩, t)) (fun v : Nat => v) [1]
      (⟨none, [0], [some 0], [some ⟨100, 0⟩]⟩ : KeyedEnumerateState Nat Nat Unit)
      = none ∧
    removeStep [⟨0⟩] ([none] : List (Option Nat)) [some ⟨100, 0⟩] [] = none ∧
    moveInPhysical [(⟨0, 0, true⟩, none, none)] ([] : List (Option Nat)) [] []
      = none := by
  refine ⟨?_, ?_, ?_⟩
  · exact c8_contract_violations_panic.1 Nat Nat Unit Nat Nat _ _ _ _ _ rfl
  · exact c8_contract_violations_panic.2.1 Nat ⟨0⟩ [] [none] [some ⟨100, 0⟩] [] rfl
  · exact c8_contract_violations_panic.2.2 Nat _ [] [] [] 0 ⟨0, 0, true⟩ none rfl rfl

theorem c9_counterexample :
    diff [0, 1, 2] [10, 11]
      = ⟨[⟨0⟩, ⟨1⟩, ⟨2⟩], [], [⟨0, DiffOpAddMode.Append⟩, ⟨1, DiffOpAddMode.Append⟩],
        true⟩ ∧
    apply_diff (diff [0, 1, 2] [10, 11]) (fun i t => (⟨t + 100, i⟩, t))
      (fun v : Nat => v) [some 0, some 1, some 2] [some 10, some 11]
      [some ⟨100, 0⟩, some ⟨101, 1⟩, some ⟨102, 2⟩] = none := by
  exact ⟨by decide, by decide⟩

/-- C9, amended: for old keys `[a,b,c]` and new keys `[x,y]` with no key in
common, the spec-modelled edit script has `clear = true`, three removals and
two additions appended in order `x` then `y`; applying it is, however, not
well-defined: the clear drain empties both arrays, the removal loop then
indexes them out of bounds, and the pass aborts. -/
theorem c9_disjoint_clear_script :
    (diff [0, 1, 2] [10, 11]).clear = true ∧
    (diff [0, 1, 2] [10, 11]).removed.length = 3 ∧
    (diff [0, 1, 2] [10, 11]).added
      = [⟨0, DiffOpAddMode.Append⟩, ⟨1, DiffOpAddMode.Append⟩] ∧
    removeStep (diff [0, 1, 2] [10, 11]).removed ([] : List (Option Nat)) []
      (clearTrace [some 0, some 1, some 2]) = none ∧
    apply_diff (diff [0, 1, 2] [10, 11]) (fun i t => (⟨t + 100, i⟩, t))
      (fun v : Nat => v) [some 0, some 1, some 2] [some 10, some 11]
      [some ⟨100, 0⟩, some ⟨101, 1⟩, some ⟨102, 2⟩] = none := by
  exact ⟨by decide, by decide, by decide, by decide, by decide⟩

/-- C10: after `build` on any input sequence, the state holds one `some`
rendered child and one `some` index binding per input item, in input order,
with both arrays of the same length as the input and no holes, and the
parent is `none` until `mount` first records it. -/
theorem c10_build_state {K S E T V : Type} [DecidableEq K] (keyFn : T → K)
    (viewFn : Nat → T → IndexBinding × V) (buildV : V → S) (items : List T) (p : E) :
    (build (E := E) keyFn viewFn buildV items).parent = none ∧
    (build (E := E) keyFn viewFn buildV items).renderedItems.length = items.length ∧
    (build (E := E) keyFn viewFn buildV items).indexItems.length = items.length ∧
    (∀ i, i < items.length → ∃ t, items[i]? = some t ∧
      (build (E := E) keyFn viewFn buildV items).renderedItems[i]? =
        some (some (buildV (viewFn i t).2)) ∧
      (build (E := E) keyFn viewFn buildV items).indexItems[i]? =
        some (some (viewFn i t).1)) ∧
    (mount (build (E := E) keyFn viewFn buildV items) p).1.parent = some p := by
  refine ⟨rfl, ?_, ?_, ?_, rfl⟩
  · simp [build]
  · simp [build]
  · intro i hi
    refine ⟨items[i], List.getElem?_eq_getElem hi, ?_, ?_⟩
    · simp [build, List.getElem?_map, List.getElem?_enum,
        List.getElem?_eq_getElem hi]
    · simp [build, List.getElem?_map, List.getElem?_enum,
        List.getElem?_eq_getElem hi]

theorem c10_witness :
    (build (E := Unit) (fun t : Nat => t) (fun i t => (⟨t + 100, i⟩, t))
      (fun v : Nat => v) [5, 6]).renderedItems[1]? = some (some 6) := by
  obtain ⟨_, _, _, h4, _⟩ := c10_build_state (E := Unit) (fun t : Nat => t)
    (fun i t => (⟨t + 100, i⟩, t)) (fun v : Nat => v) [5, 6] ()
  obtain ⟨t, ht, hr, _⟩ := h4 1 (by decide)
  have ht6 : t = 6 := by simpa using ht.symm
  subst ht6
  exact hr

theorem c4_counterexample :
    hashedKeys (fun t : Nat => t) [0, 1, 0] = [0, 1] ∧
    specLastWinsKeys [0, 1, 0] = [1, 0] ∧
    hashedKeys (fun t : Nat => t) [0, 1, 0] ≠ specLastWinsKeys [0, 1, 0] := by
  exact ⟨by decide, by decide, by decide⟩

theorem foldl_indexSetInsert {K : Type} [DecidableEq K] : ∀ (l acc : List K),
    l.foldl indexSetInsert acc
      = acc ++ dedupKeepFirst (l.filter (fun x => decide (x ∉ acc)))
  | [], acc => by simp [dedupKeepFirst]
  | x :: xs, acc => by
    by_cases hx : x ∈ acc
    · have h1 : indexSetInsert acc x = acc := by simp [indexSetInsert, hx]
      have h2 : (x :: xs).filter (fun y => decide (y ∉ acc))
          = xs.filter (fun y => decide (y ∉ acc)) := by
        simp [List.filter_cons, hx]
      rw [List.foldl_cons, h1, h2]
      exact foldl_indexSetInsert xs acc
    · have h1 : indexSetInsert acc x = acc ++ [x] := by simp [indexSetInsert, hx]
      have h2 : (x :: xs).filter (fun y => decide (y ∉ acc))
          = x :: xs.filter (fun y => decide (y ∉ acc)) := by
        simp [List.filter_cons, hx]
      have h3 : xs.filter (fun y => decide (y ∉ acc ++ [x]))
          = (xs.filter (fun y => decide (y ∉ acc))).filter
              (fun y => decide (y ≠ x)) := by
        rw [List.filter_filter]
        apply List.filter_congr
        intro a _
        rw [← Bool.decide_and]
        apply decide_eq_decide.mpr
        simp only [List.mem_append, List.mem_singleton, not_or]
        constructor
        · intro h
          exact ⟨h.2, h.1⟩
        · intro h
          exact ⟨h.2, h.1⟩
      rw [List.foldl_cons, h1, foldl_indexSetInsert xs (acc ++ [x]), h2]
      rw [show dedupKeepFirst (x :: xs.filter (fun y => decide (y ∉ acc)))
          = x :: dedupKeepFirst ((xs.filter (fun y => decide (y ∉ acc))).filter
              (fun y => decide (y ≠ x))) from by rw [dedupKeepFirst]]
      rw [h3, List.append_assoc]
      rfl

/-- C4, amended: with duplicate keys in the input sequence, the first
occurrence wins positionally: the key sequence used for diffing is the input
key list deduplicated keeping each key's first occurrence (a later duplicate
insert leaves the set unchanged), and the collection is total, raising no
error. -/
theorem c4_first_occurrence_wins {K T : Type} [DecidableEq K] (keyFn : T → K)
    (items : List T) :
    hashedKeys keyFn items = dedupKeepFirst (items.map keyFn) := by
  unfold hashedKeys
  rw [← List.foldl_map (f := keyFn) (g := indexSetInsert), foldl_indexSetInsert]
  simp only [List.nil_append]
  congr 1
  apply List.filter_eq_self.mpr
  intro a _
  simp
